import Mathlib

/-!
Verification of the voicevox-enhancer audio enhancement pipeline.

This file gives a shallow embedding of the pipeline in `src/audio/processor.py`,
of the effect variants in `src/audio/effects.py`, and of
`src/core/voice_naturalizer.py`, and proves the testable properties stated in
the specification about them.

Modelling conventions:
- audio samples are exact rationals (`ℚ`); floating point NaN and Inf can only
  arise in the Python code through division by zero, which is modelled
  explicitly via `safeDiv : ℚ → ℚ → Option ℚ` (`none` models a non-finite
  result).  Where a divisor is proven nonzero, plain rational division is used.
- numpy and librosa routines whose output is transcendental or random
  (STFT resynthesis, `np.hanning`, `np.random.normal`, `librosa.effects.pitch_shift`,
  `np.sin`, `scipy.signal.butter` coefficient design, `librosa.resample`)
  are abstract parameters (the `Oracles` structure), universally quantified
  in the theorems; side conditions that the real library guarantees
  (e.g. `np.random.normal(size=n)` has length `n`, `butter` returns a
  normalized filter with `a[0] = 1 ≠ 0`) appear as explicit hypotheses.
- `scipy.signal.lfilter` (a rational IIR difference equation) and
  `np.convolve(·, ·, mode='same')` are embedded concretely.
- Python exceptions are modelled with `Except String`; a caught exception is a
  handled `.error` value, an uncaught one propagates to the orchestrator.
-/

namespace VoicevoxEnhancer

/-- A mono waveform: an ordered sequence of samples. -/
abbrev Wave := List ℚ

/-- Python slice `xs[i : i + len]`. -/
def pySlice (xs : Wave) (i len : ℕ) : Wave := (xs.drop i).take len

/-- Numpy in-place slice addition `xs[i : i + ys.length] += ys`
(in every use below the slice fits inside `xs`, where this agrees with numpy). -/
def addAt (xs : Wave) (i : ℕ) (ys : Wave) : Wave :=
  xs.take i ++ List.zipWith (· + ·) ((xs.drop i).take ys.length) ys ++ xs.drop (i + ys.length)

/-- `np.max(np.abs(xs))` for a nonempty list (all entries of `np.abs` are
nonnegative, so folding from `0` computes the same maximum). -/
def maxAbs (xs : Wave) : ℚ := xs.foldl (fun m x => max m |x|) 0

/-- Full discrete convolution `np.convolve(a, v)`: entry `k` is
`Σ_i a[i] * v[k - i]`. -/
def convFull (a v : Wave) : Wave :=
  (List.range (a.length + v.length - 1)).map (fun k =>
    ((List.range a.length).map (fun i =>
      if i ≤ k ∧ k - i < v.length then a.getD i 0 * v.getD (k - i) 0 else 0)).sum)

/-- `np.convolve(a, v, mode='same')`: the centered slice of the full
convolution, of length `max a.length v.length`. -/
def convSame (a v : Wave) : Wave :=
  ((convFull a v).drop ((min a.length v.length - 1) / 2)).take (max a.length v.length)

/-- `scipy.signal.lfilter(b, a, x)`: the linear difference equation
`a[0]*y[n] = Σ_k b[k]*x[n-k] - Σ_{k≥1} a[k]*y[n-k]`.  Faithful whenever
`a[0] ≠ 0` (scipy's `butter` always returns `a[0] = 1`); rational division
makes the definition total. -/
def lfilter (b a x : Wave) : Wave :=
  (List.range x.length).foldl (fun ys n =>
    ys ++ [(((List.range b.length).map (fun k =>
              if k ≤ n then b.getD k 0 * x.getD (n - k) 0 else 0)).sum -
            ((List.range a.length).map (fun k =>
              if 1 ≤ k ∧ k ≤ n then a.getD k 0 * ys.getD (n - k) 0 else 0)).sum) /
           a.headD 0]) []

/-- The overlap-add weight floor: `weights[weights < 0.001] = 1.0`. -/
def clampWeights (ws : Wave) : Wave := ws.map (fun w => if w < 1/1000 then 1 else w)

/-- Floating point division with an explicit non-finite result: `none` models
the NaN/Inf produced by a zero divisor. -/
def safeDiv (s w : ℚ) : Option ℚ := if w = 0 then none else some (s / w)

/-- The overlap-add reconstruction division `sum / weights` after the weight
floor, in the NaN-transparent model. -/
def olaDivide (s ws : Wave) : List (Option ℚ) := List.zipWith safeDiv s (clampWeights ws)

/-- A waveform that is identically zero. -/
def allZero (w : Wave) : Prop := ∀ x ∈ w, x = 0

/-- `int(q)` for a nonnegative rational (Python truncation toward zero). -/
def ipart (q : ℚ) : ℕ := q.floor.toNat

/-- The settings dictionary passed to `enhance_audio`. -/
abbrev Settings := List (String × ℚ)

/-- Python `settings.get(key, d)`. -/
def getSetting (s : Settings) (key : String) (d : ℚ) : ℚ :=
  match s.find? (fun p => p.1 == key) with
  | some p => p.2
  | none => d

/-- Abstract models of the external library routines used by the pipeline
(frequency analysis, filter design, random number generation, window shapes).
Each theorem quantifies over these, with hypotheses for properties the real
libraries guarantee. -/
structure Oracles where
  /-- `enhance_spectrum`: STFT resynthesis with a high-frequency gain ramp;
  opaque (depends on librosa's FFT), may raise. -/
  spectrum : Wave → ℚ → Except String Wave
  /-- `scipy.signal.butter(2, [lo, hi], btype='band')` on normalized band
  edges; may raise (degenerate frequency range). -/
  butterBand : ℚ × ℚ → Except String (Wave × Wave)
  /-- `scipy.signal.butter(2, cutoff, btype='low')` on a normalized cutoff. -/
  butterLow : ℚ → Except String (Wave × Wave)
  /-- `np.random.normal(mean, std, size=n)`. -/
  normalVec : ℚ → ℚ → ℕ → Wave
  /-- `np.hanning(L)`. -/
  hanning : ℕ → Wave
  /-- `librosa.effects.pitch_shift(segment, sr, n_steps)`; may raise. -/
  pitchShift : ℕ → ℚ → Wave → Except String Wave
  /-- the standard normal draw consumed by the `k`-th per-segment
  `np.random.normal(0, σ)` call of a pitch-variation pass. -/
  segDraw : ℕ → ℚ
  /-- the standard normal draw consumed by the `k`-th per-segment call of a
  speed-variation pass. -/
  speedDraw : ℕ → ℚ
  /-- `np.sin(np.linspace(0, 10 * np.pi, n))`. -/
  sinRamp : ℕ → Wave

/-- The offsets `range(0, n - segL, hop)` of Python's segment loop
(for `hop > 0`; the tail shorter than a full segment is never emitted). -/
def segmentStarts (n segL hop : ℕ) : List ℕ :=
  (List.range ((n - segL + hop - 1) / hop)).map (fun k => k * hop)

/-- A list of loop offsets paired with their iteration index. -/
def withIdx (l : List ℕ) : List (ℕ × ℕ) := (List.range l.length).zip l

/-- Weighted overlap-add accumulation shared by the pitch-variation passes:
starting from zero `sum`/`weight` buffers of length `n`, add
`segment * window` and `window` at each offset. -/
def olaFold (n : ℕ) (window : Wave) (seg : ℕ → ℕ → Wave) (starts : List ℕ) : Wave × Wave :=
  (withIdx starts).foldl (fun rw ki =>
      (addAt rw.1 ki.2 (List.zipWith (· * ·) (seg ki.1 ki.2) window),
       addAt rw.2 ki.2 window))
    (List.replicate n 0, List.replicate n 0)

/-! ## The enhancement pipeline (`src/audio/processor.py`) -/

/-- The formant table of `AudioProcessor.enhance_voice_quality`, flattened in
Python dict insertion order (a, i, u, e, o — two bands each). -/
def formant_freqs : List ℚ := [800, 1200, 300, 2500, 300, 900, 500, 1800, 500, 1000]

/-- The normalized band edges
`[max(f-50, 20) / (sr/2), min(f+50, sr//2 - 1) / (sr/2)]` passed to `butter`
for one formant frequency. -/
def bandEdgesN (sr : ℕ) (freq : ℚ) : ℚ × ℚ :=
  (max (freq - 50) 20 / ((sr : ℚ) / 2), min (freq + 50) (((sr / 2 - 1 : ℕ) : ℚ)) / ((sr : ℚ) / 2))

/-- One iteration of the `enhance_voice_quality` band loop: design the
band-pass filter, apply it to the original input, and add the scaled result
onto the accumulator; any exception in the band is caught and the band is
skipped. -/
def vqStep (O : Oracles) (sr : ℕ) (audio : Wave) (level : ℚ) (acc : Wave) (freq : ℚ) : Wave :=
  match O.butterBand (bandEdgesN sr freq) with
  | .error _ => acc
  | .ok (b, a) => List.zipWith (fun ac x => ac + x * (level * (1/5))) acc (lfilter b a audio)

/-- `AudioProcessor.enhance_voice_quality(audio_data, enhancement_level)`:
each of the ten formant bands filters the original input and is added, scaled
by `level * 0.2`, onto an accumulator initialized to a copy of the input. -/
def enhance_voice_quality (O : Oracles) (sr : ℕ) (audio : Wave) (level : ℚ) : Wave :=
  formant_freqs.foldl (vqStep O sr audio level) audio

/-- `AudioProcessor.add_breathiness(audio_data, breath_amount)`: low-pass
filtered white noise, scaled by a smoothed amplitude envelope, added to the
input.  `butter` may raise (uncaught here). -/
def add_breathiness (O : Oracles) (sr : ℕ) (audio : Wave) (breath_amount : ℚ) :
    Except String Wave :=
  let noise := O.normalVec 0 (1/100) audio.length
  match O.butterLow (2000 / ((sr : ℚ) / 2)) with
  | .error e => .error e
  | .ok (b, a) =>
    let breath_noise := lfilter b a noise
    let envelope := audio.map (fun x => |x|)
    let window_size := max (min 1000 (envelope.length / 10)) 2
    let smoothed_env := convSame envelope (List.replicate window_size (1 / (window_size : ℚ)))
    .ok (List.zipWith (· + ·) audio
          ((List.zipWith (· * ·) breath_noise smoothed_env).map (fun y => y * breath_amount)))

/-- `AudioProcessor.add_natural_fluctuation(audio_data, fluctuation_rate)`:
multiplicative noise centered at 1 with std `rate * 0.05`, smoothed by a
moving average, multiplied into the signal. -/
def add_natural_fluctuation (O : Oracles) (audio : Wave) (fluctuation_rate : ℚ) : Wave :=
  let fluctuation := O.normalVec 1 (fluctuation_rate * (1/20)) audio.length
  let window_size := max (min 128 (audio.length / 10)) 2
  let smoothed := convSame fluctuation (List.replicate window_size (1 / (window_size : ℚ)))
  List.zipWith (· * ·) audio smoothed

/-- The processed segment of one `enhance_pitch_variation` iteration:
draw `np.random.normal(0, variation_amount * 0.1)`, skip shifts below `0.01`,
fall back to the unshifted segment if `pitch_shift` raises. -/
def pitchSegment (O : Oracles) (sr : ℕ) (audio : Wave) (variation_amount : ℚ)
    (segment_length k i : ℕ) : Wave :=
  let segment := pySlice audio i segment_length
  let shift_amount := O.segDraw k * (variation_amount * (1/10))
  if |shift_amount| < 1/100 then segment
  else
    match O.pitchShift sr shift_amount segment with
    | .ok s => s
    | .error _ => segment

/-- `AudioProcessor.enhance_pitch_variation(audio_data, variation_amount)`:
fixed-length Hann windowed overlap-add of per-segment pitch shifts, with the
weight floor; skipped entirely when the adaptive segment length falls below
256 samples. -/
def enhance_pitch_variation (O : Oracles) (sr : ℕ) (audio : Wave) (variation_amount : ℚ) :
    Wave :=
  let segment_length := min 2048 (audio.length / 4)
  if segment_length < 256 then audio
  else
    let rw := olaFold audio.length (O.hanning segment_length)
        (pitchSegment O sr audio variation_amount segment_length)
        (segmentStarts audio.length segment_length (segment_length / 2))
    List.zipWith (fun s w => s / w) rw.1 (clampWeights rw.2)

/-- `AudioProcessor.enhance_speed_variation(audio_data, variation_amount)`:
inputs shorter than 1000 samples are returned unchanged; otherwise the signal
is multiplied by the sinusoidal amplitude modulation
`1 + sin(linspace(0, 10π, n)) * (variation_amount * 0.05)`. -/
def enhance_speed_variation (O : Oracles) (audio : Wave) (variation_amount : ℚ) : Wave :=
  if audio.length < 1000 then audio
  else
    let modulation := (O.sinRamp audio.length).map (fun s => 1 + s * (variation_amount * (1/20)))
    List.zipWith (· * ·) audio modulation

/-- `AudioProcessor.normalize_audio(audio_data, target_level=0.9)`: peak
normalization; `none` models the `ValueError` `np.max` raises on an empty
array. -/
def normalize_audio (audio : Wave) (target_level : ℚ) : Option Wave :=
  if audio.length = 0 then none
  else if 0 < maxAbs audio then some (audio.map (fun x => x / maxAbs audio * target_level))
  else some audio

/-- The stage sequence of `enhance_audio` after the breathiness stage:
fluctuation, the gated pitch and speed variations, and the final
normalization (`none` from `normalize_audio`, impossible here, models the
empty-array `ValueError`). -/
def enhanceTail2 (O : Oracles) (sr : ℕ) (fluctuation pitch_variation speed_variation : ℚ)
    (e3 : Wave) : Except String Wave :=
  let e4 := add_natural_fluctuation O e3 fluctuation
  let e5 := if 1/20 < pitch_variation then enhance_pitch_variation O sr e4 pitch_variation
            else e4
  let e6 := if 1/20 < speed_variation then enhance_speed_variation O e5 speed_variation
            else e5
  match normalize_audio e6 (9/10) with
  | some r => .ok r
  | none => .error ("zero-size array to reduction operation maximum")

/-- The stage sequence of `enhance_audio` after the spectral stage: the
formant stage, the gated breathiness stage (whose butter call may raise), then
`enhanceTail2`. -/
def enhanceTail1 (O : Oracles) (sr : ℕ)
    (voice_quality breathiness fluctuation pitch_variation speed_variation : ℚ)
    (e1 : Wave) : Except String Wave :=
  let e2 := enhance_voice_quality O sr e1 voice_quality
  match (if 1/20 < breathiness then add_breathiness O sr e2 breathiness else .ok e2) with
  | .error e => .error e
  | .ok e3 => enhanceTail2 O sr fluctuation pitch_variation speed_variation e3

/-- The body of the `try` block of `AudioProcessor.enhance_audio`: parameter
lookup with defaults, the gated stage sequence for inputs of at least 256
samples, and the final normalization.  An `.error` is an exception escaping to
the orchestrator boundary. -/
def enhanceBody (O : Oracles) (sr : ℕ) (audio_data : Wave) (settings : Settings) :
    Except String Wave :=
  let spectrum_enhance := getSetting settings ("spectrum_enhance") (1/2)
  let voice_quality := getSetting settings ("voice_quality") (1/2)
  let fluctuation := getSetting settings ("fluctuation") (3/10)
  let breathiness := getSetting settings ("breathiness") (1/5)
  let pitch_variation := getSetting settings ("pitch_variation") (2/5)
  let speed_variation := getSetting settings ("speed_variation") (3/10)
  if 256 ≤ audio_data.length then
    match O.spectrum audio_data spectrum_enhance with
    | .error e => .error e
    | .ok e1 =>
      enhanceTail1 O sr voice_quality breathiness fluctuation pitch_variation
        speed_variation e1
  else
    match normalize_audio audio_data (9/10) with
    | some r => .ok r
    | none => .error ("zero-size array to reduction operation maximum")

/-- `AudioProcessor.enhance_audio(audio_data, settings)`: empty input returned
immediately; any exception escaping the stages is caught at the orchestrator
boundary and the original input is returned. -/
def enhance_audio (O : Oracles) (sr : ℕ) (audio_data : Wave) (settings : Settings) : Wave :=
  if audio_data.length = 0 then audio_data
  else
    match enhanceBody O sr audio_data settings with
    | .ok r => r
    | .error _ => audio_data

/-- The recognized parameter keys of `enhance_audio`. -/
def recognizedKeys : List String :=
  [("spectrum_enhance"), ("voice_quality"), ("fluctuation"), ("breathiness"),
   ("pitch_variation"), ("speed_variation")]

/-- The documented default for each recognized key. -/
def defaultFor (k : String) : ℚ :=
  if k = "spectrum_enhance" then 1/2
  else if k = "voice_quality" then 1/2
  else if k = "fluctuation" then 3/10
  else if k = "breathiness" then 1/5
  else if k = "pitch_variation" then 2/5
  else if k = "speed_variation" then 3/10
  else 0

/-- The settings mapping holding every recognized key at its default. -/
def defaultSettings : Settings :=
  [(("spectrum_enhance"), 1/2), (("voice_quality"), 1/2), (("fluctuation"), 3/10),
   (("breathiness"), 1/5), (("pitch_variation"), 2/5), (("speed_variation"), 3/10)]

/-- The per-band contribution named by the specification of the formant
shaper: `level * 0.2` times the band-pass-filtered original input, and exactly
nothing for a band whose filter construction raised. -/
def bandContribution (O : Oracles) (sr : ℕ) (audio : Wave) (level : ℚ) (freq : ℚ) : Wave :=
  match O.butterBand (bandEdgesN sr freq) with
  | .error _ => List.replicate audio.length 0
  | .ok (b, a) => (lfilter b a audio).map (fun x => x * (level * (1/5)))

/-- Elementwise waveform addition. -/
def wadd (x y : Wave) : Wave := List.zipWith (· + ·) x y

/-! ## The effect variants (`src/audio/effects.py`) -/

/-- The processed segment of one `adjust_pitch_variation` iteration
(std `variation_amount * 0.5`, shift applied when `|shift| > 0.01`). -/
def pitchSegmentFx (O : Oracles) (sr : ℕ) (audio : Wave) (variation_amount : ℚ)
    (segment_length k i : ℕ) : Wave :=
  let segment := pySlice audio i segment_length
  let shift_amount := O.segDraw k * (variation_amount * (1/2))
  if 1/100 < |shift_amount| then
    match O.pitchShift sr shift_amount segment with
    | .ok s => s
    | .error _ => segment
  else segment

/-- `adjust_pitch_variation(audio_data, sample_rate, variation_amount)`:
50 ms Hann windowed overlap-add of per-segment pitch shifts with the weight
floor; `.error` models the `ValueError` Python's `range` raises when the hop
is zero. -/
def adjust_pitch_variation (O : Oracles) (audio : Wave) (sr : ℕ) (variation_amount : ℚ) :
    Except String Wave :=
  if variation_amount ≤ 0 then .ok audio
  else
    let segment_length := sr / 20
    let hop_length := segment_length / 2
    if hop_length = 0 then .error ("range arg 3 must not be zero")
    else
      let rw := olaFold audio.length (O.hanning segment_length)
          (pitchSegmentFx O sr audio variation_amount segment_length)
          (segmentStarts audio.length segment_length hop_length)
      .ok (List.zipWith (fun s w => s / w) rw.1 (clampWeights rw.2))

/-- The clamp of the per-segment speed factor to `[0.8, 1.2]`. -/
def clampSpeed (x : ℚ) : ℚ := if x ≤ 4/5 then 4/5 else if 6/5 ≤ x then 6/5 else x

/-- The index of the last nonzero entry, `np.max(np.nonzero(w)[0])`;
`none` models the `ValueError` `np.max` raises on an empty index set. -/
def lastNonzero (w : Wave) : Option ℕ :=
  (List.range w.length).foldl (fun acc j => if w.getD j 0 ≠ 0 then some j else acc) none

/-- The mutable state of the `adjust_speed_variation` loop. -/
structure SpeedState where
  result : Wave
  weights : Wave
  output_pos : ℕ

/-- One iteration of the `adjust_speed_variation` loop: draw and clamp the
speed factor, window the segment (twice when the factor is not 1, as the code
does), accumulate when the write fits, and advance the write cursor by
`int(hop * speed_factor)`. -/
def speedStep (O : Oracles) (audio window : Wave) (segL hop : ℕ) (variation : ℚ)
    (st : SpeedState) (ki : ℕ × ℕ) : SpeedState :=
  let segment := pySlice audio ki.2 segL
  let speed_factor := clampSpeed (1 + O.speedDraw ki.1 * (variation * (1/10)))
  let segment2 := if speed_factor = 1 then segment else List.zipWith (· * ·) segment window
  let st2 :=
    if st.output_pos + segL ≤ st.result.length then
      SpeedState.mk (addAt st.result st.output_pos (List.zipWith (· * ·) segment2 window))
        (addAt st.weights st.output_pos window) st.output_pos
    else st
  SpeedState.mk st2.result st2.weights (st.output_pos + ipart ((hop : ℚ) * speed_factor))

/-- The tail of `adjust_speed_variation` after the accumulation loop: trim to
the last nonzero weight (`np.max(np.nonzero(weights)[0]) + 1`, raising on an
all-zero weight buffer), weight-floor normalization, and resampling back to
the input length `n` when the trimmed length differs. -/
def speedFinish (resample : Wave → ℕ → ℕ → Wave) (n : ℕ) (final : SpeedState) :
    Except String Wave :=
  match lastNonzero final.weights with
  | none => .error ("zero-size array to reduction operation maximum")
  | some j =>
    let result := final.result.take (j + 1)
    let weights2 := clampWeights (final.weights.take (j + 1))
    let normalized := List.zipWith (fun s w => s / w) result weights2
    if normalized.length = n then .ok normalized
    else .ok (resample normalized normalized.length n)

/-- `adjust_speed_variation(audio_data, sample_rate, variation_amount)`:
variable-rate overlap-add into a buffer of length
`n + int(n * variation * 0.5)`, then `speedFinish` (trim, weight-floor
normalization, resample back).  `.error` models the uncaught `ValueError`s
(zero `range` step; `np.max` over an empty nonzero index set). -/
def adjust_speed_variation (O : Oracles) (resample : Wave → ℕ → ℕ → Wave)
    (audio : Wave) (sr : ℕ) (variation_amount : ℚ) : Except String Wave :=
  if variation_amount ≤ 0 then .ok audio
  else
    let segment_length := sr / 5
    let hop_length := 3 * segment_length / 4
    if hop_length = 0 then .error ("range arg 3 must not be zero")
    else
      let n := audio.length
      let resLen := n + ipart ((n : ℚ) * variation_amount * (1/2))
      let window := O.hanning segment_length
      speedFinish resample n
        ((withIdx (segmentStarts n segment_length hop_length)).foldl
          (speedStep O audio window segment_length hop_length variation_amount)
          (SpeedState.mk (List.replicate resLen 0) (List.replicate resLen 0) 0))

/-! ## `VoiceNaturalizer.enhance_formants` (`src/core/voice_naturalizer.py`) -/

/-- The raw band edges `[max(f-50, 20), min(f+50, sr//2 - 1)]` passed (with
`fs=sample_rate`) to `butter` by `VoiceNaturalizer`. -/
def vnBandEdges (sr : ℕ) (freq : ℚ) : ℚ × ℚ :=
  (max (freq - 50) 20, min (freq + 50) (((sr / 2 - 1 : ℕ) : ℚ)))

/-- One band of `VoiceNaturalizer.enhance_formants`: no exception containment,
the filtered original input is added scaled by `(vowel_emphasis - 1) * 0.2`. -/
def vnStep (butterVN : ℚ × ℚ → Except String (Wave × Wave)) (audio : Wave) (sr : ℕ)
    (vowel_emphasis : ℚ) (acc : Except String Wave) (freq : ℚ) : Except String Wave :=
  match acc with
  | .error e => .error e
  | .ok ac =>
    match butterVN (vnBandEdges sr freq) with
    | .error e => .error e
    | .ok (b, a) =>
      .ok (List.zipWith (fun y x => y + x * ((vowel_emphasis - 1) * (1/5))) ac
            (lfilter b a audio))

/-- `VoiceNaturalizer.enhance_formants(audio_data, sample_rate, vowel_emphasis)`:
the ten formant bands accumulated onto a copy of the input, then an unguarded
division by the peak absolute amplitude (`safeDiv`: a zero peak makes every
returned sample non-finite). -/
def enhance_formants (butterVN : ℚ × ℚ → Except String (Wave × Wave)) (audio : Wave)
    (sr : ℕ) (vowel_emphasis : ℚ) : Except String (List (Option ℚ)) :=
  match formant_freqs.foldl (vnStep butterVN audio sr vowel_emphasis) (.ok audio) with
  | .error e => .error e
  | .ok enhanced =>
    if enhanced.length = 0 then .error ("zero-size array to reduction operation maximum")
    else .ok (enhanced.map (fun x => safeDiv x (maxAbs enhanced)))

/-! ## Concrete instances used by the witnesses -/

/-- A concrete oracle assignment: identity spectral stage, trivial normalized
filters, zero noise, all-ones windows, identity pitch shift, zero draws. -/
def O0 : Oracles :=
  ⟨fun w _ => .ok w, fun _ => .ok ([1], [1]), fun _ => .ok ([1], [1]),
   fun _ _ m => List.replicate m 0, fun L => List.replicate L 1,
   fun _ _ s => .ok s, fun _ => 0, fun _ => 0, fun m => List.replicate m 0⟩

/-- A concrete resampler satisfying librosa's output-length contract. -/
def R0 : Wave → ℕ → ℕ → Wave := fun _ _ t => List.replicate t 0

/-- An oracle assignment whose spectral stage raises. -/
def Oerr : Oracles :=
  ⟨fun _ _ => .error ("boom"), fun _ => .ok ([1], [1]), fun _ => .ok ([1], [1]),
   fun _ _ m => List.replicate m 0, fun L => List.replicate L 1,
   fun _ _ s => .ok s, fun _ => 0, fun _ => 0, fun m => List.replicate m 0⟩

/-- A concrete filter-design function returning the trivial normalized filter. -/
def B0 : ℚ × ℚ → Except String (Wave × Wave) := fun _ => .ok ([1], [1])

/-! ## Basic list lemmas -/

theorem replicate_getD (n i : ℕ) : (List.replicate n (0 : ℚ)).getD i 0 = 0 := by
  rw [List.getD_eq_getElem?_getD, List.getElem?_replicate]
  split <;> rfl

theorem allZero_getD {w : Wave} (h : allZero w) (i : ℕ) : w.getD i 0 = 0 := by
  rw [List.getD_eq_getElem?_getD]
  cases hw : w[i]? with
  | none => rfl
  | some a => exact h a (List.getElem?_mem hw)

theorem allZero_replicate (n : ℕ) : allZero (List.replicate n 0) :=
  fun _ hx => List.eq_of_mem_replicate hx

theorem allZero_of_eq_replicate {w : Wave} {n : ℕ} (h : w = List.replicate n 0) :
    allZero w := by
  subst h; exact allZero_replicate n

theorem eq_replicate_of_allZero {w : Wave} {n : ℕ} (h : allZero w) (hl : w.length = n) :
    w = List.replicate n 0 :=
  List.eq_replicate.mpr ⟨hl, h⟩

theorem addAt_nil (i : ℕ) (ys : Wave) : addAt [] i ys = [] := by
  simp [addAt]

theorem addAt_cons_succ (x : ℚ) (xs : Wave) (i : ℕ) (ys : Wave) :
    addAt (x :: xs) (i + 1) ys = x :: addAt xs i ys := by
  unfold addAt
  have h : i + 1 + ys.length = i + ys.length + 1 := by omega
  rw [h]
  simp [List.take_succ_cons, List.drop_succ_cons]

theorem addAt_zero_nil_right (xs : Wave) : addAt xs 0 [] = xs := by
  simp [addAt]

theorem addAt_zero_cons (x y : ℚ) (xs ys : Wave) :
    addAt (x :: xs) 0 (y :: ys) = (x + y) :: addAt xs 0 ys := by
  simp [addAt, List.take_succ_cons, List.drop_succ_cons]

theorem addAt_length (xs : Wave) (i : ℕ) (ys : Wave) : (addAt xs i ys).length = xs.length := by
  induction xs generalizing i ys with
  | nil => simp [addAt_nil]
  | cons x xs ih =>
    cases i with
    | zero =>
      cases ys with
      | nil => rw [addAt_zero_nil_right]
      | cons y ys => simp [addAt_zero_cons, ih 0 ys]
    | succ i => simp [addAt_cons_succ, ih i ys]

theorem addAt_allZero (xs : Wave) (i : ℕ) {ys : Wave} (h : allZero ys) : addAt xs i ys = xs := by
  induction xs generalizing i ys with
  | nil => simp [addAt_nil]
  | cons x xs ih =>
    cases i with
    | zero =>
      cases ys with
      | nil => rw [addAt_zero_nil_right]
      | cons y ys =>
        have hy : y = 0 := h y (by simp)
        have hys : allZero ys := fun z hz => h z (by simp [hz])
        rw [addAt_zero_cons, ih 0 hys, hy, add_zero]
    | succ i => rw [addAt_cons_succ, ih i h]

theorem addAt_getD_le (xs : Wave) (i : ℕ) {ys : Wave} (h : ∀ y ∈ ys, 0 ≤ y) (j : ℕ) :
    xs.getD j 0 ≤ (addAt xs i ys).getD j 0 := by
  induction xs generalizing i ys j with
  | nil => simp [addAt_nil]
  | cons x xs ih =>
    cases i with
    | zero =>
      cases ys with
      | nil => rw [addAt_zero_nil_right]
      | cons y ys =>
        have hy : 0 ≤ y := h y (by simp)
        have hys : ∀ z ∈ ys, 0 ≤ z := fun z hz => h z (by simp [hz])
        cases j with
        | zero =>
          simp only [addAt_zero_cons, List.getD_cons_zero]
          exact le_add_of_nonneg_right hy
        | succ j => simpa [addAt_zero_cons] using ih 0 hys j
    | succ i =>
      cases j with
      | zero => simp [addAt_cons_succ]
      | succ j => simpa [addAt_cons_succ] using ih i h j

theorem addAt_zero_getD (xs : Wave) {ys : Wave} (j : ℕ) (hx : j < xs.length)
    (hy : j < ys.length) : (addAt xs 0 ys).getD j 0 = xs.getD j 0 + ys.getD j 0 := by
  induction xs generalizing ys j with
  | nil => simp at hx
  | cons x xs ih =>
    cases ys with
    | nil => simp at hy
    | cons y ys =>
      cases j with
      | zero => simp [addAt_zero_cons]
      | succ j =>
        simp only [addAt_zero_cons, List.getD_cons_succ]
        exact ih j (by simpa using hx) (by simpa using hy)

theorem zipWith_mul_replicate_zero_left (n : ℕ) (l : Wave) :
    List.zipWith (· * ·) (List.replicate n 0) l = List.replicate (min n l.length) 0 := by
  induction n generalizing l with
  | zero => simp
  | succ n ih =>
    cases l with
    | nil => simp
    | cons y l =>
      simp only [List.replicate_succ, List.zipWith_cons_cons, ih l, zero_mul,
        List.length_cons, Nat.succ_min_succ]

theorem zipWith_div_replicate_zero_left (n : ℕ) (l : Wave) :
    List.zipWith (fun s w => s / w) (List.replicate n 0) l =
      List.replicate (min n l.length) 0 := by
  induction n generalizing l with
  | zero => simp
  | succ n ih =>
    cases l with
    | nil => simp
    | cons y l =>
      simp only [List.replicate_succ, List.zipWith_cons_cons, ih l, zero_div,
        List.length_cons, Nat.succ_min_succ]

theorem zipWith_mul_replicate_zero_right (l : Wave) (n : ℕ) :
    List.zipWith (· * ·) l (List.replicate n 0) = List.replicate (min l.length n) 0 := by
  induction l generalizing n with
  | nil => simp
  | cons x l ih =>
    cases n with
    | zero => simp
    | succ n =>
      simp only [List.replicate_succ, List.zipWith_cons_cons, ih n, mul_zero,
        List.length_cons, Nat.succ_min_succ]

theorem zipWith_mul_allZero_left {l : Wave} (h : allZero l) (l2 : Wave) :
    allZero (List.zipWith (· * ·) l l2) := by
  induction l generalizing l2 with
  | nil => intro x hx; simp at hx
  | cons x l ih =>
    cases l2 with
    | nil => intro z hz; simp at hz
    | cons y l2 =>
      intro z hz
      simp only [List.zipWith_cons_cons, List.mem_cons] at hz
      rcases hz with hz | hz
      · rw [hz, h x (by simp), zero_mul]
      · exact ih (fun u hu => h u (by simp [hu])) l2 z hz

theorem wadd_replicate_zero_right (l : Wave) : wadd l (List.replicate l.length 0) = l := by
  induction l with
  | nil => rfl
  | cons x l ih => simp only [wadd] at ih ⊢; simp [List.replicate_succ, ih]

theorem wadd_replicate_zero_left (l : Wave) : wadd (List.replicate l.length 0) l = l := by
  induction l with
  | nil => rfl
  | cons x l ih => simp only [wadd] at ih ⊢; simp [List.replicate_succ, ih]

theorem wadd_length (x y : Wave) : (wadd x y).length = min x.length y.length :=
  List.length_zipWith _ x y

theorem wadd_assoc (x y z : Wave) : wadd (wadd x y) z = wadd x (wadd y z) := by
  induction x generalizing y z with
  | nil => rfl
  | cons a x ih =>
    cases y with
    | nil => rfl
    | cons b y =>
      cases z with
      | nil => rfl
      | cons c z =>
        simp only [wadd, List.zipWith_cons_cons] at ih ⊢
        rw [add_assoc]
        exact congrArg _ (ih y z)

theorem clampWeights_length (ws : Wave) : (clampWeights ws).length = ws.length :=
  List.length_map ws _

theorem clampWeights_ne_zero {ws : Wave} : ∀ w ∈ clampWeights ws, w ≠ 0 := by
  intro w hw
  rcases List.mem_map.mp hw with ⟨a, _, rfl⟩
  by_cases h : a < 1/1000
  · rw [if_pos h]; exact one_ne_zero
  · rw [if_neg h]
    exact ne_of_gt (lt_of_lt_of_le (by norm_num) (le_of_not_lt h))

/-! ## `maxAbs` lemmas -/

theorem maxAbs_fold_nonneg (l : Wave) (a : ℚ) (ha : 0 ≤ a) :
    0 ≤ l.foldl (fun m x => max m |x|) a := by
  induction l generalizing a with
  | nil => exact ha
  | cons x l ih => exact ih _ (le_trans ha (le_max_left _ _))

theorem maxAbs_nonneg (l : Wave) : 0 ≤ maxAbs l :=
  maxAbs_fold_nonneg l 0 le_rfl

theorem maxAbs_replicate_zero (n : ℕ) : maxAbs (List.replicate n 0) = 0 := by
  induction n with
  | zero => rfl
  | succ n ih =>
    unfold maxAbs at ih ⊢
    simpa [List.replicate_succ] using ih

theorem maxAbs_fold_map_mul (l : Wave) (c : ℚ) (hc : 0 ≤ c) (a : ℚ) :
    (l.map (fun x => x * c)).foldl (fun m x => max m |x|) (a * c) =
      (l.foldl (fun m x => max m |x|) a) * c := by
  induction l generalizing a with
  | nil => rfl
  | cons x l ih =>
    simp only [List.map_cons, List.foldl_cons]
    rw [abs_mul, abs_of_nonneg hc, ← max_mul_of_nonneg _ _ hc, ih]

theorem maxAbs_map_mul (l : Wave) (c : ℚ) (hc : 0 ≤ c) :
    maxAbs (l.map (fun x => x * c)) = maxAbs l * c := by
  unfold maxAbs
  rw [← zero_mul c, maxAbs_fold_map_mul l c hc 0, zero_mul]

/-! ## `lfilter` lemmas -/

theorem foldl_append_singleton_length {α : Type} (g : Wave → α → ℚ) (l : List α) (ys : Wave) :
    (l.foldl (fun ys n => ys ++ [g ys n]) ys).length = ys.length + l.length := by
  induction l generalizing ys with
  | nil => simp
  | cons n l ih => simp [ih]; omega

theorem lfilter_length (b a x : Wave) : (lfilter b a x).length = x.length := by
  unfold lfilter
  rw [foldl_append_singleton_length]
  simp

theorem lfilter_fold_allZero (b a x : Wave) (hx : allZero x) (l : List ℕ) (ys : Wave)
    (hys : allZero ys) :
    allZero (l.foldl (fun ys n =>
      ys ++ [(((List.range b.length).map (fun k =>
                if k ≤ n then b.getD k 0 * x.getD (n - k) 0 else 0)).sum -
              ((List.range a.length).map (fun k =>
                if 1 ≤ k ∧ k ≤ n then a.getD k 0 * ys.getD (n - k) 0 else 0)).sum) /
             a.headD 0]) ys) := by
  induction l generalizing ys with
  | nil => exact hys
  | cons n l ih =>
    apply ih
    intro z hz
    rcases List.mem_append.mp hz with h | h
    · exact hys z h
    · rw [List.mem_singleton.mp h]
      have hb : ((List.range b.length).map (fun k =>
          if k ≤ n then b.getD k 0 * x.getD (n - k) 0 else 0)).sum = 0 := by
        apply List.sum_eq_zero
        intro t ht
        rcases List.mem_map.mp ht with ⟨k, _, rfl⟩
        split
        · rw [allZero_getD hx, mul_zero]
        · rfl
      have ha : ((List.range a.length).map (fun k =>
          if 1 ≤ k ∧ k ≤ n then a.getD k 0 * ys.getD (n - k) 0 else 0)).sum = 0 := by
        apply List.sum_eq_zero
        intro t ht
        rcases List.mem_map.mp ht with ⟨k, _, rfl⟩
        split
        · rw [allZero_getD hys, mul_zero]
        · rfl
      rw [hb, ha, sub_zero, zero_div]

theorem lfilter_allZero (b a : Wave) {x : Wave} (hx : allZero x) : allZero (lfilter b a x) :=
  lfilter_fold_allZero b a x hx _ [] (fun z hz => by simp at hz)

theorem lfilter_replicate_zero (b a : Wave) (n : ℕ) :
    lfilter b a (List.replicate n 0) = List.replicate n 0 := by
  apply eq_replicate_of_allZero (lfilter_allZero b a (allZero_replicate n))
  rw [lfilter_length]
  simp

/-! ## Convolution lemmas -/

theorem convFull_replicate_zero (n : ℕ) (v : Wave) :
    convFull (List.replicate n 0) v = List.replicate (n + v.length - 1) 0 := by
  apply eq_replicate_of_allZero
  · intro z hz
    unfold convFull at hz
    rcases List.mem_map.mp hz with ⟨k, _, rfl⟩
    apply List.sum_eq_zero
    intro t ht
    rcases List.mem_map.mp ht with ⟨i, _, rfl⟩
    split
    · rw [replicate_getD, zero_mul]
    · rfl
  · unfold convFull
    simp

theorem convSame_allZero_of_left {a : Wave} (v : Wave) (h : allZero a) :
    allZero (convSame a v) := by
  intro z hz
  unfold convSame at hz
  have hz2 := List.mem_of_mem_take hz
  have hz3 := List.mem_of_mem_drop hz2
  unfold convFull at hz3
  rcases List.mem_map.mp hz3 with ⟨k, _, rfl⟩
  apply List.sum_eq_zero
  intro t ht
  rcases List.mem_map.mp ht with ⟨i, _, rfl⟩
  split
  · rw [allZero_getD h, zero_mul]
  · rfl

theorem convSame_length (a v : Wave) (h1 : 1 ≤ v.length) (h2 : v.length ≤ a.length) :
    (convSame a v).length = a.length := by
  unfold convSame convFull
  simp only [List.length_take, List.length_drop, List.length_map, List.length_range]
  omega

theorem convSame_replicate_zero (n : ℕ) (v : Wave) (h1 : 1 ≤ v.length) (h2 : v.length ≤ n) :
    convSame (List.replicate n 0) v = List.replicate n 0 := by
  apply eq_replicate_of_allZero (convSame_allZero_of_left v (allZero_replicate n))
  rw [convSame_length _ _ h1 (by simpa using h2)]
  simp

/-! ## Overlap-add fold lemmas -/

theorem ola_foldl_lengths (window : Wave) (seg : ℕ → ℕ → Wave) (l : List (ℕ × ℕ))
    (rw : Wave × Wave) :
    ((l.foldl (fun rw ki =>
        (addAt rw.1 ki.2 (List.zipWith (· * ·) (seg ki.1 ki.2) window),
         addAt rw.2 ki.2 window)) rw).1.length = rw.1.length ∧
     (l.foldl (fun rw ki =>
        (addAt rw.1 ki.2 (List.zipWith (· * ·) (seg ki.1 ki.2) window),
         addAt rw.2 ki.2 window)) rw).2.length = rw.2.length) := by
  induction l generalizing rw with
  | nil => exact ⟨rfl, rfl⟩
  | cons ki l ih =>
    rw [List.foldl_cons]
    rcases ih (addAt rw.1 ki.2 (List.zipWith (· * ·) (seg ki.1 ki.2) window),
      addAt rw.2 ki.2 window) with ⟨h1, h2⟩
    constructor
    · rw [h1]; exact addAt_length _ _ _
    · rw [h2]; exact addAt_length _ _ _

theorem olaFold_length (n : ℕ) (window : Wave) (seg : ℕ → ℕ → Wave) (starts : List ℕ) :
    (olaFold n window seg starts).1.length = n ∧
      (olaFold n window seg starts).2.length = n := by
  unfold olaFold
  rcases ola_foldl_lengths window seg (withIdx starts)
    (List.replicate n 0, List.replicate n 0) with ⟨h1, h2⟩
  constructor
  · rw [h1]; simp
  · rw [h2]; simp

theorem ola_foldl_result_eq (window : Wave) (seg : ℕ → ℕ → Wave) (l : List (ℕ × ℕ))
    (rw : Wave × Wave) (hseg : ∀ k i, allZero (seg k i)) :
    (l.foldl (fun rw ki =>
        (addAt rw.1 ki.2 (List.zipWith (· * ·) (seg ki.1 ki.2) window),
         addAt rw.2 ki.2 window)) rw).1 = rw.1 := by
  induction l generalizing rw with
  | nil => rfl
  | cons ki l ih =>
    rw [List.foldl_cons, ih, addAt_allZero _ _ (zipWith_mul_allZero_left (hseg ki.1 ki.2) window)]

theorem olaFold_result_zero (n : ℕ) (window : Wave) (seg : ℕ → ℕ → Wave) (starts : List ℕ)
    (hseg : ∀ k i, allZero (seg k i)) :
    (olaFold n window seg starts).1 = List.replicate n 0 := by
  unfold olaFold
  exact ola_foldl_result_eq window seg (withIdx starts) _ hseg

/-! ## `lastNonzero` lemmas -/

theorem lastNonzero_fold_none {w : Wave} (l : List ℕ) (hl : ∀ j ∈ l, w.getD j 0 = 0)
    (acc : Option ℕ) :
    l.foldl (fun acc j => if w.getD j 0 ≠ 0 then some j else acc) acc = acc := by
  induction l generalizing acc with
  | nil => rfl
  | cons j l ih =>
    rw [List.foldl_cons, if_neg (not_not_intro (hl j (by simp)))]
    exact ih (fun j2 h2 => hl j2 (by simp [h2])) acc

theorem lastNonzero_replicate_zero (m : ℕ) : lastNonzero (List.replicate m 0) = none := by
  unfold lastNonzero
  exact lastNonzero_fold_none _ (fun j _ => replicate_getD m j) none

theorem lastNonzero_fold_some {w : Wave} (l : List ℕ) (acc : Option ℕ)
    (hex : ∃ j ∈ l, w.getD j 0 ≠ 0) :
    ∃ jm ∈ l, l.foldl (fun acc j => if w.getD j 0 ≠ 0 then some j else acc) acc = some jm := by
  induction l generalizing acc with
  | nil => rcases hex with ⟨j, hj, _⟩; simp at hj
  | cons j l ih =>
    by_cases hl : ∃ j2 ∈ l, w.getD j2 0 ≠ 0
    · rcases ih (if w.getD j 0 ≠ 0 then some j else acc) hl with ⟨jm, hjm, he⟩
      exact ⟨jm, by simp [hjm], by rw [List.foldl_cons]; exact he⟩
    · have hj : w.getD j 0 ≠ 0 := by
        rcases hex with ⟨j2, hj2, hne⟩
        rcases List.mem_cons.mp hj2 with h2 | h2
        · rw [← h2]; exact hne
        · exact absurd ⟨j2, h2, hne⟩ hl
      refine ⟨j, by simp, ?_⟩
      rw [List.foldl_cons, if_pos hj, lastNonzero_fold_none l ?_ (some j)]
      intro j2 hj2
      by_contra hne
      exact hl ⟨j2, hj2, hne⟩

theorem lastNonzero_some_of_ne {w : Wave} (j : ℕ) (hj : j < w.length)
    (hne : w.getD j 0 ≠ 0) : ∃ jm, lastNonzero w = some jm ∧ jm < w.length := by
  unfold lastNonzero
  rcases lastNonzero_fold_some (List.range w.length) none
    ⟨j, List.mem_range.mpr hj, hne⟩ with ⟨jm, hjm, he⟩
  exact ⟨jm, he, List.mem_range.mp hjm⟩

/-! ## Loop index lemmas -/

theorem withIdx_cons (a : ℕ) (l : List ℕ) :
    withIdx (a :: l) = (0, a) :: ((List.range l.length).map Nat.succ).zip l := by
  simp [withIdx, List.range_succ_eq_map, List.zip_cons_cons]

theorem segmentStarts_nil (n segL hop : ℕ) (hhop : 0 < hop) (h : n ≤ segL) :
    segmentStarts n segL hop = [] := by
  unfold segmentStarts
  have h0 : n - segL = 0 := by omega
  rw [h0, Nat.div_eq_of_lt (by omega)]
  rfl

theorem segmentStarts_cons (n segL hop : ℕ) (hhop : 0 < hop) (h : segL < n) :
    ∃ t, segmentStarts n segL hop = 0 :: t := by
  unfold segmentStarts
  have hm : 0 < (n - segL + hop - 1) / hop := Nat.div_pos (by omega) hhop
  obtain ⟨m, hmm⟩ : ∃ m, (n - segL + hop - 1) / hop = m + 1 :=
    ⟨(n - segL + hop - 1) / hop - 1, by omega⟩
  rw [hmm, List.range_succ_eq_map]
  refine ⟨(List.map Nat.succ (List.range m)).map (fun k => k * hop), ?_⟩
  simp

/-! ## Formant-stage fold lemmas -/

theorem bandContribution_length (O : Oracles) (sr : ℕ) (audio : Wave) (level freq : ℚ) :
    (bandContribution O sr audio level freq).length = audio.length := by
  unfold bandContribution
  cases O.butterBand (bandEdgesN sr freq) with
  | error e => simp
  | ok ba => simp [lfilter_length]

theorem vqStep_wadd (O : Oracles) (sr : ℕ) (audio : Wave) (level : ℚ) (acc : Wave) (freq : ℚ)
    (hlen : acc.length = audio.length) :
    vqStep O sr audio level acc freq = wadd acc (bandContribution O sr audio level freq) := by
  unfold vqStep bandContribution
  cases O.butterBand (bandEdgesN sr freq) with
  | error e =>
    rw [← hlen]
    exact (wadd_replicate_zero_right acc).symm
  | ok ba =>
    obtain ⟨b, a⟩ := ba
    unfold wadd
    rw [List.zipWith_map_right]

theorem vq_foldl_eq (O : Oracles) (sr : ℕ) (audio : Wave) (level : ℚ) (l : List ℚ)
    (acc : Wave) (hacc : acc.length = audio.length) :
    l.foldl (vqStep O sr audio level) acc =
      l.foldl (fun s f => wadd s (bandContribution O sr audio level f)) acc := by
  induction l generalizing acc with
  | nil => rfl
  | cons f l ih =>
    rw [List.foldl_cons, List.foldl_cons, vqStep_wadd _ _ _ _ _ _ hacc]
    exact ih _ (by rw [wadd_length, hacc, bandContribution_length]; simp)

theorem wadd_foldl_shift (c : ℚ → Wave) (n : ℕ) (hc : ∀ f, (c f).length = n)
    (l : List ℚ) (s : Wave) (hs : s.length = n) :
    l.foldl (fun s f => wadd s (c f)) s =
      wadd s (l.foldl (fun s f => wadd s (c f)) (List.replicate n 0)) := by
  induction l generalizing s with
  | nil =>
    rw [List.foldl_nil, List.foldl_nil, ← hs, wadd_replicate_zero_right]
  | cons f l ih =>
    rw [List.foldl_cons, List.foldl_cons,
      ih (wadd s (c f)) (by rw [wadd_length, hs, hc]; simp),
      show wadd (List.replicate n 0) (c f) = c f from by
        rw [← hc f]; exact wadd_replicate_zero_left _,
      ih (c f) (hc f), wadd_assoc]

/-! ## Normalization helper lemmas -/

theorem normalize_audio_isSome {audio : Wave} (h : audio.length ≠ 0) (t : ℚ) :
    ∃ u, normalize_audio audio t = some u := by
  unfold normalize_audio
  rw [if_neg h]
  split <;> exact ⟨_, rfl⟩

theorem normalize_audio_scale (audio : Wave) (h : audio.length ≠ 0) :
    ∃ c : ℚ, 0 < c ∧ normalize_audio audio (9/10) = some (audio.map (fun x => x * c)) := by
  unfold normalize_audio
  rw [if_neg h]
  by_cases hm : 0 < maxAbs audio
  · rw [if_pos hm]
    refine ⟨9/10 / maxAbs audio, div_pos (by norm_num) hm, ?_⟩
    congr 1
    apply List.map_congr_left
    intro x _
    rw [div_mul_eq_mul_div, mul_div_assoc]
  · rw [if_neg hm]
    exact ⟨1, one_pos, by simp⟩

theorem normalize_audio_replicate_zero (n : ℕ) (hn : 0 < n) (t : ℚ) :
    normalize_audio (List.replicate n 0) t = some (List.replicate n 0) := by
  unfold normalize_audio
  rw [if_neg (by simp; omega), if_neg (by rw [maxAbs_replicate_zero]; exact lt_irrefl 0)]

/-! ## Division extraction lemmas -/

theorem zipWith_safeDiv_isSome (s cw : Wave) (hcw : ∀ x ∈ cw, x ≠ 0) :
    ∀ o ∈ List.zipWith safeDiv s cw, o.isSome = true := by
  induction s generalizing cw with
  | nil => intro o ho; simp at ho
  | cons a s ih =>
    cases cw with
    | nil => intro o ho; simp at ho
    | cons b cw =>
      intro o ho
      rcases List.mem_cons.mp (by simpa using ho) with h | h
      · rw [h]
        unfold safeDiv
        rw [if_neg (hcw b (by simp))]
        rfl
      · exact ih cw (fun x hx => hcw x (by simp [hx])) o h

theorem zipWith_safeDiv_getD (s cw : Wave) (hcw : ∀ x ∈ cw, x ≠ 0) :
    (List.zipWith safeDiv s cw).map (fun o => o.getD 0) =
      List.zipWith (fun a b => a / b) s cw := by
  induction s generalizing cw with
  | nil => rfl
  | cons a s ih =>
    cases cw with
    | nil => rfl
    | cons b cw =>
      simp only [List.zipWith_cons_cons, List.map_cons]
      rw [ih cw (fun x hx => hcw x (by simp [hx]))]
      unfold safeDiv
      rw [if_neg (hcw b (by simp))]
      rfl

theorem olaDivide_getD (s w : Wave) :
    (olaDivide s w).map (fun o => o.getD 0) =
      List.zipWith (fun a b => a / b) s (clampWeights w) := by
  unfold olaDivide
  exact zipWith_safeDiv_getD s (clampWeights w) clampWeights_ne_zero

/-! ## Settings lemmas -/

theorem getSetting_nil (key : String) (d : ℚ) : getSetting [] key d = d := rfl

theorem getSetting_cons_self (k : String) (v : ℚ) (s : Settings) (d : ℚ) :
    getSetting ((k, v) :: s) k d = v := by
  unfold getSetting
  rw [List.find?_cons]
  simp

theorem getSetting_cons_ne {k key : String} (h : k ≠ key) (v : ℚ) (s : Settings) (d : ℚ) :
    getSetting ((k, v) :: s) key d = getSetting s key d := by
  have hf : List.find? (fun p => p.1 == key) ((k, v) :: s) =
      List.find? (fun p => p.1 == key) s := by
    rw [List.find?_cons]
    have hb : ((k, v).1 == key) = false := beq_eq_false_iff_ne.mpr h
    rw [hb]
  unfold getSetting
  rw [hf]

theorem getSetting_eq_default_of_absent {s : Settings} {key : String}
    (h : s.find? (fun p => p.1 == key) = none) (d : ℚ) : getSetting s key d = d := by
  unfold getSetting
  rw [h]

theorem getSetting_cons_default (key k : String) (s : Settings) (d : ℚ)
    (habs : s.find? (fun p => p.1 == key) = none) (hd : key = k → defaultFor key = d) :
    getSetting ((key, defaultFor key) :: s) k d = getSetting s k d := by
  by_cases hk : key = k
  · subst hk
    rw [getSetting_cons_self, getSetting_eq_default_of_absent habs]
    exact hd rfl
  · exact getSetting_cons_ne hk _ _ _

theorem enhanceBody_settings_congr (O : Oracles) (sr : ℕ) (w : Wave) (s1 s2 : Settings)
    (h1 : getSetting s1 ("spectrum_enhance") (1/2) = getSetting s2 ("spectrum_enhance") (1/2))
    (h2 : getSetting s1 ("voice_quality") (1/2) = getSetting s2 ("voice_quality") (1/2))
    (h3 : getSetting s1 ("fluctuation") (3/10) = getSetting s2 ("fluctuation") (3/10))
    (h4 : getSetting s1 ("breathiness") (1/5) = getSetting s2 ("breathiness") (1/5))
    (h5 : getSetting s1 ("pitch_variation") (2/5) = getSetting s2 ("pitch_variation") (2/5))
    (h6 : getSetting s1 ("speed_variation") (3/10) = getSetting s2 ("speed_variation") (3/10)) :
    enhanceBody O sr w s1 = enhanceBody O sr w s2 := by
  unfold enhanceBody
  rw [h1, h2, h3, h4, h5, h6]

theorem enhance_audio_settings_congr (O : Oracles) (sr : ℕ) (w : Wave) (s1 s2 : Settings)
    (h1 : getSetting s1 ("spectrum_enhance") (1/2) = getSetting s2 ("spectrum_enhance") (1/2))
    (h2 : getSetting s1 ("voice_quality") (1/2) = getSetting s2 ("voice_quality") (1/2))
    (h3 : getSetting s1 ("fluctuation") (3/10) = getSetting s2 ("fluctuation") (3/10))
    (h4 : getSetting s1 ("breathiness") (1/5) = getSetting s2 ("breathiness") (1/5))
    (h5 : getSetting s1 ("pitch_variation") (2/5) = getSetting s2 ("pitch_variation") (2/5))
    (h6 : getSetting s1 ("speed_variation") (3/10) = getSetting s2 ("speed_variation") (3/10)) :
    enhance_audio O sr w s1 = enhance_audio O sr w s2 := by
  unfold enhance_audio
  rw [enhanceBody_settings_congr O sr w s1 s2 h1 h2 h3 h4 h5 h6]

/-! ## Zero-signal stage lemmas -/

theorem vq_zero (O : Oracles) (sr : ℕ) (n : ℕ) (level : ℚ) :
    enhance_voice_quality O sr (List.replicate n 0) level = List.replicate n 0 := by
  unfold enhance_voice_quality
  have hfold : ∀ (l : List ℚ),
      l.foldl (vqStep O sr (List.replicate n 0) level) (List.replicate n 0) =
        List.replicate n 0 := by
    intro l
    induction l with
    | nil => rfl
    | cons f l ih =>
      rw [List.foldl_cons]
      have hstep : vqStep O sr (List.replicate n 0) level (List.replicate n 0) f =
          List.replicate n 0 := by
        unfold vqStep
        cases hb : O.butterBand (bandEdgesN sr f) with
        | error e => rfl
        | ok ba =>
          obtain ⟨b, a⟩ := ba
          show List.zipWith (fun ac x => ac + x * (level * (1/5))) (List.replicate n 0)
            (lfilter b a (List.replicate n 0)) = List.replicate n 0
          rw [lfilter_replicate_zero, List.zipWith_replicate]
          simp
      rw [hstep]
      exact ih
  exact hfold formant_freqs

theorem breath_zero (O : Oracles) (sr : ℕ) (n : ℕ) (amt : ℚ)
    (hnv : ∀ μ σ m, (O.normalVec μ σ m).length = m) (hn : 20 ≤ n) :
    ∀ r, add_breathiness O sr (List.replicate n 0) amt = .ok r → r = List.replicate n 0 := by
  intro r hr
  cases hb : O.butterLow (2000 / ((sr : ℚ) / 2)) with
  | error e =>
    have : add_breathiness O sr (List.replicate n 0) amt = .error e := by
      unfold add_breathiness
      rw [hb]
    rw [this] at hr
    exact absurd hr (by simp)
  | ok ba =>
    obtain ⟨b, a⟩ := ba
    have hval : add_breathiness O sr (List.replicate n 0) amt =
        .ok (List.replicate n 0) := by
      unfold add_breathiness
      rw [hb]
      show Except.ok (List.zipWith (· + ·) (List.replicate n 0)
        ((List.zipWith (· * ·)
            (lfilter b a (O.normalVec 0 (1/100) (List.replicate n (0 : ℚ)).length))
            (convSame ((List.replicate n (0 : ℚ)).map (fun x => |x|))
              (List.replicate
                (max (min 1000 (((List.replicate n (0 : ℚ)).map (fun x => |x|)).length / 10)) 2)
                (1 / ((max (min 1000
                  (((List.replicate n (0 : ℚ)).map (fun x => |x|)).length / 10)) 2 : ℕ) : ℚ))))).map
          (fun y => y * amt))) = Except.ok (List.replicate n 0)
      rw [List.map_replicate, abs_zero, List.length_replicate,
        convSame_replicate_zero n _ (by simp only [List.length_replicate]; omega)
          (by simp only [List.length_replicate]; omega),
        zipWith_mul_replicate_zero_right, lfilter_length, hnv, min_self,
        List.map_replicate, zero_mul, List.zipWith_replicate]
      simp
    rw [hval] at hr
    injection hr with h
    exact h.symm

theorem fluct_zero (O : Oracles) (n : ℕ) (rate : ℚ)
    (hnv : ∀ μ σ m, (O.normalVec μ σ m).length = m) (hn : 20 ≤ n) :
    add_natural_fluctuation O (List.replicate n 0) rate = List.replicate n 0 := by
  unfold add_natural_fluctuation
  simp only [List.length_replicate]
  rw [zipWith_mul_replicate_zero_left,
    convSame_length _ _ (by simp only [List.length_replicate]; omega)
      (by simp only [List.length_replicate]; rw [hnv]; omega), hnv, min_self]

theorem pitch_zero (O : Oracles) (sr : ℕ) (n : ℕ) (v : ℚ)
    (hpz : ∀ sr2 st s, allZero s → ∀ r, O.pitchShift sr2 st s = .ok r → allZero r) :
    enhance_pitch_variation O sr (List.replicate n 0) v = List.replicate n 0 := by
  unfold enhance_pitch_variation
  simp only [List.length_replicate]
  split
  · rfl
  · have hseg : ∀ k i,
        allZero (pitchSegment O sr (List.replicate n 0) v (min 2048 (n / 4)) k i) := by
      intro k i
      have hsl : allZero (pySlice (List.replicate n 0) i (min 2048 (n / 4))) := by
        unfold pySlice
        rw [List.drop_replicate, List.take_replicate]
        exact allZero_replicate _
      simp only [pitchSegment]
      split
      · exact hsl
      · split
        · next s hps => exact hpz _ _ _ hsl s hps
        · exact hsl
    rw [olaFold_result_zero _ _ _ _ hseg, zipWith_div_replicate_zero_left,
      clampWeights_length, (olaFold_length _ _ _ _).2, min_self]

theorem speed_zero (O : Oracles) (n : ℕ) (v : ℚ) (hsin : ∀ m, (O.sinRamp m).length = m)
    (hn : 1000 ≤ n) :
    enhance_speed_variation O (List.replicate n 0) v = List.replicate n 0 := by
  unfold enhance_speed_variation
  simp only [List.length_replicate]
  rw [if_neg (by omega), zipWith_mul_replicate_zero_left, List.length_map, hsin, min_self]

theorem tail2_zero (O : Oracles) (sr : ℕ) (fl pv sv : ℚ) (n : ℕ)
    (hnv : ∀ μ σ m, (O.normalVec μ σ m).length = m)
    (hsin : ∀ m, (O.sinRamp m).length = m)
    (hpz : ∀ sr2 st s, allZero s → ∀ r, O.pitchShift sr2 st s = .ok r → allZero r)
    (hn : 1000 ≤ n) :
    enhanceTail2 O sr fl pv sv (List.replicate n 0) = .ok (List.replicate n 0) := by
  simp only [enhanceTail2]
  rw [fluct_zero O n fl hnv (by omega)]
  have h5 : (if 1/20 < pv then enhance_pitch_variation O sr (List.replicate n 0) pv
      else List.replicate n 0) = List.replicate n 0 := by
    split
    · exact pitch_zero O sr n pv hpz
    · rfl
  rw [h5]
  have h6 : (if 1/20 < sv then enhance_speed_variation O (List.replicate n 0) sv
      else List.replicate n 0) = List.replicate n 0 := by
    split
    · exact speed_zero O n sv hsin hn
    · rfl
  rw [h6, normalize_audio_replicate_zero n (by omega)]

theorem tail1_zero (O : Oracles) (sr : ℕ) (vq br fl pv sv : ℚ) (n : ℕ)
    (hnv : ∀ μ σ m, (O.normalVec μ σ m).length = m)
    (hsin : ∀ m, (O.sinRamp m).length = m)
    (hpz : ∀ sr2 st s, allZero s → ∀ r, O.pitchShift sr2 st s = .ok r → allZero r)
    (hn : 1000 ≤ n) :
    (∃ e, enhanceTail1 O sr vq br fl pv sv (List.replicate n 0) = .error e) ∨
    enhanceTail1 O sr vq br fl pv sv (List.replicate n 0) = .ok (List.replicate n 0) := by
  simp only [enhanceTail1]
  rw [vq_zero]
  by_cases hbr : (1/20 : ℚ) < br
  · rw [if_pos hbr]
    cases hb : add_breathiness O sr (List.replicate n 0) br with
    | error e =>
      left
      exact ⟨e, rfl⟩
    | ok e3 =>
      right
      show enhanceTail2 O sr fl pv sv e3 = .ok (List.replicate n 0)
      rw [breath_zero O sr n br hnv (by omega) e3 hb]
      exact tail2_zero O sr fl pv sv n hnv hsin hpz hn
  · rw [if_neg hbr]
    right
    show enhanceTail2 O sr fl pv sv (List.replicate n 0) = .ok (List.replicate n 0)
    exact tail2_zero O sr fl pv sv n hnv hsin hpz hn

/-! ## Speed-variation loop lemmas -/

theorem speedStep_result_length (O : Oracles) (audio window : Wave) (segL hop : ℕ) (v : ℚ)
    (st : SpeedState) (ki : ℕ × ℕ) :
    (speedStep O audio window segL hop v st ki).result.length = st.result.length := by
  simp only [speedStep]
  split
  · exact addAt_length _ _ _
  · rfl

theorem speedStep_weights_length (O : Oracles) (audio window : Wave) (segL hop : ℕ) (v : ℚ)
    (st : SpeedState) (ki : ℕ × ℕ) :
    (speedStep O audio window segL hop v st ki).weights.length = st.weights.length := by
  simp only [speedStep]
  split
  · exact addAt_length _ _ _
  · rfl

theorem speedStep_weights_ge (O : Oracles) (audio window : Wave) (segL hop : ℕ) (v : ℚ)
    (hw : ∀ y ∈ window, 0 ≤ y) (st : SpeedState) (ki : ℕ × ℕ) (j : ℕ) :
    st.weights.getD j 0 ≤ (speedStep O audio window segL hop v st ki).weights.getD j 0 := by
  simp only [speedStep]
  split
  · exact addAt_getD_le _ _ hw j
  · exact le_rfl

theorem speed_foldl_result_length (O : Oracles) (audio window : Wave) (segL hop : ℕ)
    (v : ℚ) (l : List (ℕ × ℕ)) (st : SpeedState) :
    (l.foldl (speedStep O audio window segL hop v) st).result.length = st.result.length := by
  induction l generalizing st with
  | nil => rfl
  | cons ki l ih =>
    rw [List.foldl_cons, ih (speedStep O audio window segL hop v st ki),
      speedStep_result_length]

theorem speed_foldl_weights_length (O : Oracles) (audio window : Wave) (segL hop : ℕ)
    (v : ℚ) (l : List (ℕ × ℕ)) (st : SpeedState) :
    (l.foldl (speedStep O audio window segL hop v) st).weights.length = st.weights.length := by
  induction l generalizing st with
  | nil => rfl
  | cons ki l ih =>
    rw [List.foldl_cons, ih (speedStep O audio window segL hop v st ki),
      speedStep_weights_length]

theorem speed_foldl_weights_ge (O : Oracles) (audio window : Wave) (segL hop : ℕ) (v : ℚ)
    (hw : ∀ y ∈ window, 0 ≤ y) (l : List (ℕ × ℕ)) (st : SpeedState) (j : ℕ) :
    st.weights.getD j 0 ≤
      (l.foldl (speedStep O audio window segL hop v) st).weights.getD j 0 := by
  induction l generalizing st with
  | nil => exact le_rfl
  | cons ki l ih =>
    rw [List.foldl_cons]
    exact le_trans (speedStep_weights_ge O audio window segL hop v hw st ki j)
      (ih (speedStep O audio window segL hop v st ki))

theorem speedFinish_ok (R : Wave → ℕ → ℕ → Wave) (n : ℕ) (final : SpeedState) (j0 : ℕ)
    (hj : j0 < final.weights.length) (hne : final.weights.getD j0 0 ≠ 0)
    (hlen : final.result.length = final.weights.length)
    (hres : ∀ x t, 0 < x.length → (R x x.length t).length = t) :
    ∃ w, speedFinish R n final = .ok w ∧ w.length = n := by
  rcases lastNonzero_some_of_ne j0 hj hne with ⟨jm, hlast, hjm⟩
  have hnl : (List.zipWith (fun s w => s / w) (final.result.take (jm + 1))
      (clampWeights (final.weights.take (jm + 1)))).length = jm + 1 := by
    rw [List.length_zipWith, clampWeights_length, List.length_take, List.length_take, hlen]
    omega
  simp only [speedFinish]
  rw [hlast]
  by_cases hcase : (List.zipWith (fun s w => s / w) (final.result.take (jm + 1))
      (clampWeights (final.weights.take (jm + 1)))).length = n
  · refine ⟨List.zipWith (fun s w => s / w) (final.result.take (jm + 1))
      (clampWeights (final.weights.take (jm + 1))), ?_, hcase⟩
    show (if (List.zipWith (fun s w => s / w) (final.result.take (jm + 1))
        (clampWeights (final.weights.take (jm + 1)))).length = n then
        Except.ok (List.zipWith (fun s w => s / w) (final.result.take (jm + 1))
          (clampWeights (final.weights.take (jm + 1))))
      else Except.ok (R (List.zipWith (fun s w => s / w) (final.result.take (jm + 1))
          (clampWeights (final.weights.take (jm + 1))))
        (List.zipWith (fun s w => s / w) (final.result.take (jm + 1))
          (clampWeights (final.weights.take (jm + 1)))).length n)) =
      Except.ok (List.zipWith (fun s w => s / w) (final.result.take (jm + 1))
        (clampWeights (final.weights.take (jm + 1))))
    rw [if_pos hcase]
  · refine ⟨R (List.zipWith (fun s w => s / w) (final.result.take (jm + 1))
        (clampWeights (final.weights.take (jm + 1))))
      (List.zipWith (fun s w => s / w) (final.result.take (jm + 1))
        (clampWeights (final.weights.take (jm + 1)))).length n, ?_, ?_⟩
    · show (if (List.zipWith (fun s w => s / w) (final.result.take (jm + 1))
          (clampWeights (final.weights.take (jm + 1)))).length = n then
          Except.ok (List.zipWith (fun s w => s / w) (final.result.take (jm + 1))
            (clampWeights (final.weights.take (jm + 1))))
        else Except.ok (R (List.zipWith (fun s w => s / w) (final.result.take (jm + 1))
            (clampWeights (final.weights.take (jm + 1))))
          (List.zipWith (fun s w => s / w) (final.result.take (jm + 1))
            (clampWeights (final.weights.take (jm + 1)))).length n)) =
        Except.ok (R (List.zipWith (fun s w => s / w) (final.result.take (jm + 1))
            (clampWeights (final.weights.take (jm + 1))))
          (List.zipWith (fun s w => s / w) (final.result.take (jm + 1))
            (clampWeights (final.weights.take (jm + 1)))).length n)
      rw [if_neg hcase]
    · exact hres _ n (by rw [hnl]; omega)

theorem speedFinish_zero_weights (R : Wave → ℕ → ℕ → Wave) (n m p : ℕ) (res : Wave) :
    speedFinish R n (SpeedState.mk res (List.replicate m 0) p) =
      .error ("zero-size array to reduction operation maximum") := by
  unfold speedFinish
  rw [show lastNonzero (SpeedState.mk res (List.replicate m 0) p).weights = none from
    lastNonzero_replicate_zero m]

/-! ## Claim theorems -/

/-- C1: any exception escaping the stages of `enhance_audio` is caught at the
orchestrator boundary and the original, unmodified input waveform is returned;
`enhance_audio` itself is a total function, so no exception reaches the
caller. -/
theorem claim_C1 (O : Oracles) (sr : ℕ) (audio : Wave) (settings : Settings) (msg : String)
    (h : enhanceBody O sr audio settings = .error msg) :
    enhance_audio O sr audio settings = audio := by
  unfold enhance_audio
  rw [h]
  split <;> rfl

set_option maxRecDepth 4000 in
/-- Witness for C1: with a spectral stage that raises, the pipeline body on a
256-sample waveform errors, and `enhance_audio` returns the input unchanged. -/
theorem claim_C1_witness :
    enhanceBody Oerr 24000 (List.replicate 256 1) [] = .error ("boom") ∧
    enhance_audio Oerr 24000 (List.replicate 256 1) [] = List.replicate 256 1 :=
  ⟨by rfl, claim_C1 Oerr 24000 (List.replicate 256 1) [] ("boom") (by rfl)⟩

/-- C2: for a non-empty waveform with fewer than 256 samples, `enhance_audio`
is exactly peak normalization to level 0.9: the output length equals the input
length and the output is the input times one uniform positive scale factor (no
spectral, formant, breathiness, fluctuation or prosody stage is applied). -/
theorem claim_C2 (O : Oracles) (sr : ℕ) (audio : Wave) (settings : Settings)
    (h0 : 0 < audio.length) (h256 : audio.length < 256) :
    enhance_audio O sr audio settings = (normalize_audio audio (9/10)).getD audio ∧
    (enhance_audio O sr audio settings).length = audio.length ∧
    ∃ c : ℚ, 0 < c ∧ enhance_audio O sr audio settings = audio.map (fun x => x * c) := by
  have hne : ¬ audio.length = 0 := by omega
  obtain ⟨c, hc, hcs⟩ := normalize_audio_scale audio hne
  have hval : enhance_audio O sr audio settings = (normalize_audio audio (9/10)).getD audio := by
    unfold enhance_audio enhanceBody
    rw [if_neg hne, if_neg (by omega : ¬ 256 ≤ audio.length), hcs]
    rfl
  refine ⟨hval, ?_, c, hc, ?_⟩
  · rw [hval, hcs]
    simp
  · rw [hval, hcs]
    rfl

/-- Witness for C2 at the two-sample waveform `[1, -3]`. -/
theorem claim_C2_witness :
    (0 < ([(1 : ℚ), -3]).length ∧ ([(1 : ℚ), -3]).length < 256) ∧
    enhance_audio O0 24000 [1, -3] [] = (normalize_audio [1, -3] (9/10)).getD [1, -3] ∧
    (enhance_audio O0 24000 [1, -3] []).length = ([(1 : ℚ), -3]).length ∧
    ∃ c : ℚ, 0 < c ∧ enhance_audio O0 24000 [1, -3] [] = [1, -3].map (fun x => x * c) :=
  ⟨⟨by decide, by decide⟩,
    (claim_C2 O0 24000 [1, -3] [] (by decide) (by decide)).1,
    (claim_C2 O0 24000 [1, -3] [] (by decide) (by decide)).2.1,
    (claim_C2 O0 24000 [1, -3] [] (by decide) (by decide)).2.2⟩

/-- C7: `normalize_audio` is idempotent for every target level `t ∈ (0, 1]`,
stated in the Kleisli sense so that it also covers the empty-input error
case. -/
theorem claim_C7 (w : Wave) (t : ℚ) (ht0 : 0 < t) (ht1 : t ≤ 1) :
    (normalize_audio w t).bind (fun u => normalize_audio u t) = normalize_audio w t := by
  by_cases hw : w.length = 0
  · unfold normalize_audio
    rw [if_pos hw]
    rfl
  · by_cases hm : 0 < maxAbs w
    · have hstep : normalize_audio w t = some (w.map (fun x => x / maxAbs w * t)) := by
        unfold normalize_audio
        rw [if_neg hw, if_pos hm]
      rw [hstep]
      show normalize_audio (w.map (fun x => x / maxAbs w * t)) t =
        some (w.map (fun x => x / maxAbs w * t))
      have hu2 : w.map (fun x => x / maxAbs w * t) = w.map (fun x => x * (t / maxAbs w)) :=
        List.map_congr_left (fun x _ => by rw [div_mul_eq_mul_div, mul_div_assoc])
      have hmu : maxAbs (w.map (fun x => x / maxAbs w * t)) = t := by
        rw [hu2, maxAbs_map_mul w _ (le_of_lt (div_pos ht0 hm))]
        field_simp
      unfold normalize_audio
      rw [if_neg (by simpa using hw), if_pos (by rw [hmu]; exact ht0), hmu]
      congr 1
      have hid : ∀ x ∈ w.map (fun x => x / maxAbs w * t), x / t * t = x :=
        fun x _ => div_mul_cancel₀ x (ne_of_gt ht0)
      rw [List.map_congr_left hid]
      simp
    · have hstep : normalize_audio w t = some w := by
        unfold normalize_audio
        rw [if_neg hw, if_neg hm]
      rw [hstep]
      show normalize_audio w t = some w
      exact hstep

/-- Witness for C7 at `w = [1, -2]`, `t = 9/10`. -/
theorem claim_C7_witness :
    (0 < (9/10 : ℚ) ∧ (9/10 : ℚ) ≤ 1) ∧
    (normalize_audio [1, -2] (9/10)).bind (fun u => normalize_audio u (9/10)) =
      normalize_audio [1, -2] (9/10) :=
  ⟨⟨by norm_num, by norm_num⟩, claim_C7 [1, -2] (9/10) (by norm_num) (by norm_num)⟩

/-- C8: for every oracle assignment, sample rate, input and level, the formant
stage equals the input plus the fold of the per-band contributions, where each
band (`bandContribution`) filters the pristine original input scaled by
`level * 0.2`, and a band whose filter construction raised contributes the
zero waveform while every remaining band is still accumulated. -/
theorem claim_C8 (O : Oracles) (sr : ℕ) (audio : Wave) (level : ℚ) :
    enhance_voice_quality O sr audio level =
      wadd audio (formant_freqs.foldl
        (fun s f => wadd s (bandContribution O sr audio level f))
        (List.replicate audio.length 0)) := by
  unfold enhance_voice_quality
  rw [vq_foldl_eq O sr audio level formant_freqs audio rfl]
  exact wadd_foldl_shift (bandContribution O sr audio level) audio.length
    (bandContribution_length O sr audio level) formant_freqs audio rfl

/-- C5: every weight-sum entry below `1e-3` is clamped to `1`, so every
divisor of the overlap-add reconstruction is nonzero: the reconstruction in
the NaN-transparent model (`olaDivide`) has no non-finite entry for any
waveform, and the pitch-variation stage's output is exactly its finite
extraction. -/
theorem claim_C5 :
    (∀ s w : Wave, ∀ o ∈ olaDivide s w, o.isSome = true) ∧
    (∀ (O : Oracles) (sr : ℕ) (audio : Wave) (v : ℚ),
      256 ≤ min 2048 (audio.length / 4) →
      enhance_pitch_variation O sr audio v =
        (olaDivide
          (olaFold audio.length (O.hanning (min 2048 (audio.length / 4)))
            (pitchSegment O sr audio v (min 2048 (audio.length / 4)))
            (segmentStarts audio.length (min 2048 (audio.length / 4))
              (min 2048 (audio.length / 4) / 2))).1
          (olaFold audio.length (O.hanning (min 2048 (audio.length / 4)))
            (pitchSegment O sr audio v (min 2048 (audio.length / 4)))
            (segmentStarts audio.length (min 2048 (audio.length / 4))
              (min 2048 (audio.length / 4) / 2))).2).map (fun o => o.getD 0)) := by
  constructor
  · intro s w
    unfold olaDivide
    exact zipWith_safeDiv_isSome s (clampWeights w) clampWeights_ne_zero
  · intro O sr audio v h
    unfold enhance_pitch_variation
    rw [if_neg (by omega)]
    exact (olaDivide_getD _ _).symm

/-- Witness for C5: the membership statement at `s = [2]`, `w = [0]` (a zero
overlap weight) and the stage equation at a 1024-sample waveform. -/
theorem claim_C5_witness :
    (∀ o ∈ olaDivide [(2 : ℚ)] [(0 : ℚ)], o.isSome = true) ∧
    (256 ≤ min 2048 ((List.replicate 1024 (0 : ℚ)).length / 4)) ∧
    enhance_pitch_variation O0 24000 (List.replicate 1024 0) (2/5) =
      (olaDivide
        (olaFold (List.replicate 1024 (0 : ℚ)).length
          (O0.hanning (min 2048 ((List.replicate 1024 (0 : ℚ)).length / 4)))
          (pitchSegment O0 24000 (List.replicate 1024 0) (2/5)
            (min 2048 ((List.replicate 1024 (0 : ℚ)).length / 4)))
          (segmentStarts (List.replicate 1024 (0 : ℚ)).length
            (min 2048 ((List.replicate 1024 (0 : ℚ)).length / 4))
            (min 2048 ((List.replicate 1024 (0 : ℚ)).length / 4) / 2))).1
        (olaFold (List.replicate 1024 (0 : ℚ)).length
          (O0.hanning (min 2048 ((List.replicate 1024 (0 : ℚ)).length / 4)))
          (pitchSegment O0 24000 (List.replicate 1024 0) (2/5)
            (min 2048 ((List.replicate 1024 (0 : ℚ)).length / 4)))
          (segmentStarts (List.replicate 1024 (0 : ℚ)).length
            (min 2048 ((List.replicate 1024 (0 : ℚ)).length / 4))
            (min 2048 ((List.replicate 1024 (0 : ℚ)).length / 4) / 2))).2).map
        (fun o => o.getD 0) :=
  ⟨claim_C5.1 [2] [0], by rw [List.length_replicate]; decide,
    claim_C5.2 O0 24000 (List.replicate 1024 0) (2/5)
      (by rw [List.length_replicate]; decide)⟩

/-- C10: `VoiceNaturalizer.enhance_formants` divides by the peak absolute
amplitude with no zero guard: on an all-zero input (any positive length, with
`butter` succeeding and returning a normalized filter as it always does) every
returned sample is non-finite rather than silence. -/
theorem claim_C10 (butterVN : ℚ × ℚ → Except String (Wave × Wave)) (sr : ℕ) (emph : ℚ)
    (n : ℕ) (hn : 0 < n)
    (hb : ∀ p, ∃ b a, butterVN p = .ok (b, a) ∧ a.headD 0 ≠ 0) :
    enhance_formants butterVN (List.replicate n 0) sr emph =
      .ok (List.replicate n (none : Option ℚ)) := by
  have hfold : ∀ l : List ℚ,
      l.foldl (vnStep butterVN (List.replicate n 0) sr emph) (.ok (List.replicate n 0)) =
        .ok (List.replicate n 0) := by
    intro l
    induction l with
    | nil => rfl
    | cons f l ih =>
      rw [List.foldl_cons]
      have hstep : vnStep butterVN (List.replicate n 0) sr emph
          (.ok (List.replicate n 0)) f = .ok (List.replicate n 0) := by
        show (match butterVN (vnBandEdges sr f) with
          | .error e => .error e
          | .ok (b, a) =>
            Except.ok (List.zipWith (fun y x => y + x * ((emph - 1) * (1/5)))
              (List.replicate n 0) (lfilter b a (List.replicate n 0)))) =
          Except.ok (List.replicate n 0)
        rcases hb (vnBandEdges sr f) with ⟨b, a, hba, _⟩
        rw [hba]
        show Except.ok (List.zipWith (fun y x => y + x * ((emph - 1) * (1/5)))
          (List.replicate n 0) (lfilter b a (List.replicate n 0))) =
          Except.ok (List.replicate n 0)
        rw [lfilter_replicate_zero, List.zipWith_replicate]
        simp
      rw [hstep]
      exact ih
  unfold enhance_formants
  simp only [hfold formant_freqs]
  rw [if_neg (by simp; omega)]
  rw [maxAbs_replicate_zero, List.map_replicate]
  rfl

/-- Witness for C10 at `n = 3`, the trivial normalized filter. -/
theorem claim_C10_witness :
    (0 < 3) ∧ (∀ p, ∃ b a, B0 p = .ok (b, a) ∧ a.headD 0 ≠ 0) ∧
    enhance_formants B0 (List.replicate 3 0) 24000 (6/5) =
      .ok (List.replicate 3 (none : Option ℚ)) :=
  ⟨by decide, fun p => ⟨[1], [1], rfl, by norm_num⟩,
    claim_C10 B0 24000 (6/5) 3 (by decide)
      (fun p => ⟨[1], [1], rfl, by norm_num⟩)⟩

/-- C6: an all-zero waveform of length 10000 passed through the full pipeline
with the empty settings mapping comes back as all zeros: every stage maps the
zero signal to the zero signal (the breathiness and fluctuation envelopes
derived from zero amplitude contribute nothing) and the final normalization is
a no-op on silence.  The hypotheses state what the real libraries guarantee:
the spectral stage resynthesizes silence as silence, `np.random.normal(size=m)`
and `np.sin(linspace)` have the requested length, `pitch_shift` maps silence
to silence when it succeeds, and `butter` returns normalized filters. -/
theorem claim_C6 (O : Oracles) (sr : ℕ)
    (hspec : ∀ r, O.spectrum (List.replicate 10000 0) (1/2) = .ok r →
      r = List.replicate 10000 0)
    (hnv : ∀ μ σ m, (O.normalVec μ σ m).length = m)
    (hsin : ∀ m, (O.sinRamp m).length = m)
    (hpz : ∀ sr2 st s, allZero s → ∀ r, O.pitchShift sr2 st s = .ok r → allZero r)
    (hbb : ∀ p b a, O.butterBand p = .ok (b, a) → a.headD 0 ≠ 0)
    (hbl : ∀ q b a, O.butterLow q = .ok (b, a) → a.headD 0 ≠ 0) :
    enhance_audio O sr (List.replicate 10000 0) [] = List.replicate 10000 0 := by
  have hZ : (256 : ℕ) ≤ (List.replicate 10000 (0 : ℚ)).length := by
    simp only [List.length_replicate]
    norm_num
  have hne : ¬ (List.replicate 10000 (0 : ℚ)).length = 0 := by
    simp only [List.length_replicate]
    norm_num
  cases hs : O.spectrum (List.replicate 10000 0) (1/2) with
  | error e =>
    have hbody : enhanceBody O sr (List.replicate 10000 0) [] = .error e := by
      unfold enhanceBody
      simp only [getSetting_nil]
      rw [if_pos hZ, hs]
    unfold enhance_audio
    rw [if_neg hne, hbody]
  | ok e1 =>
    have he1 := hspec e1 hs
    have hbody : enhanceBody O sr (List.replicate 10000 0) [] =
        enhanceTail1 O sr (1/2) (1/5) (3/10) (2/5) (3/10) (List.replicate 10000 0) := by
      unfold enhanceBody
      simp only [getSetting_nil]
      rw [if_pos hZ, hs, he1]
    rcases tail1_zero O sr (1/2) (1/5) (3/10) (2/5) (3/10) 10000 hnv hsin hpz
        (by norm_num) with ⟨e, he⟩ | hok
    · unfold enhance_audio
      rw [if_neg hne, hbody, he]
    · unfold enhance_audio
      rw [if_neg hne, hbody, hok]

/-- Witness for C6: the concrete oracle assignment `O0` satisfies every
library-guarantee hypothesis, and the pipeline maps the 10000-sample silence
to itself. -/
theorem claim_C6_witness :
    (∀ r, O0.spectrum (List.replicate 10000 0) (1/2) = .ok r →
      r = List.replicate 10000 0) ∧
    (∀ μ σ m, (O0.normalVec μ σ m).length = m) ∧
    (∀ m, (O0.sinRamp m).length = m) ∧
    (∀ sr2 st s, allZero s → ∀ r, O0.pitchShift sr2 st s = .ok r → allZero r) ∧
    enhance_audio O0 24000 (List.replicate 10000 0) [] = List.replicate 10000 0 := by
  refine ⟨?_, ?_, ?_, ?_, ?_⟩
  · intro r h
    injection h with h2
    exact h2.symm
  · intro μ σ m
    simp [O0]
  · intro m
    simp [O0]
  · intro sr2 st s hz r h
    injection h with h2
    rw [← h2]
    exact hz
  · exact claim_C6 O0 24000
      (fun r h => by injection h with h2; exact h2.symm)
      (fun μ σ m => by simp [O0])
      (fun m => by simp [O0])
      (fun sr2 st s hz r h => by injection h with h2; rw [← h2]; exact hz)
      (fun p b a h => by injection h with h2; cases h2; norm_num)
      (fun q b a h => by injection h with h2; cases h2; norm_num)

/-- C4: both pitch-variation implementations preserve the input length.  The
pipeline stage `enhance_pitch_variation` always returns a waveform of the
input's length, whether it runs the fixed-length overlap-add or skips because
the adaptive segment length is below the 256-sample floor; `adjust_pitch_variation`
returns a waveform of the input's length whenever it returns a waveform at
all.  The hypotheses state librosa/numpy length guarantees (not needed by the
proof of the truncating embedding, but required for the model to be faithful:
with them every slice addition fits exactly). -/
theorem claim_C4 (O : Oracles) (sr : ℕ) (audio : Wave) (v : ℚ)
    (hwin : ∀ L, (O.hanning L).length = L)
    (hps : ∀ sr2 st s r, O.pitchShift sr2 st s = .ok r → r.length = s.length) :
    (enhance_pitch_variation O sr audio v).length = audio.length ∧
    (∀ r, adjust_pitch_variation O audio sr v = .ok r → r.length = audio.length) := by
  constructor
  · simp only [enhance_pitch_variation]
    split
    · rfl
    · rw [List.length_zipWith, clampWeights_length,
        (olaFold_length audio.length (O.hanning (min 2048 (audio.length / 4)))
          (pitchSegment O sr audio v (min 2048 (audio.length / 4)))
          (segmentStarts audio.length (min 2048 (audio.length / 4))
            (min 2048 (audio.length / 4) / 2))).1,
        (olaFold_length audio.length (O.hanning (min 2048 (audio.length / 4)))
          (pitchSegment O sr audio v (min 2048 (audio.length / 4)))
          (segmentStarts audio.length (min 2048 (audio.length / 4))
            (min 2048 (audio.length / 4) / 2))).2, min_self]
  · intro r hr
    simp only [adjust_pitch_variation] at hr
    by_cases hv : v ≤ 0
    · rw [if_pos hv] at hr
      injection hr with h
      rw [← h]
    · rw [if_neg hv] at hr
      by_cases hh : sr / 20 / 2 = 0
      · rw [if_pos hh] at hr
        exact absurd hr (by simp)
      · rw [if_neg hh] at hr
        injection hr with h
        rw [← h, List.length_zipWith, clampWeights_length,
          (olaFold_length audio.length (O.hanning (sr / 20))
            (pitchSegmentFx O sr audio v (sr / 20))
            (segmentStarts audio.length (sr / 20) (sr / 20 / 2))).1,
          (olaFold_length audio.length (O.hanning (sr / 20))
            (pitchSegmentFx O sr audio v (sr / 20))
            (segmentStarts audio.length (sr / 20) (sr / 20 / 2))).2, min_self]

/-- Witness for C4 at the waveform `[1, 2, 3]`. -/
theorem claim_C4_witness :
    (∀ L, (O0.hanning L).length = L) ∧
    (∀ sr2 st s r, O0.pitchShift sr2 st s = .ok r → r.length = s.length) ∧
    (enhance_pitch_variation O0 24000 [1, 2, 3] (2/5)).length = 3 ∧
    (∀ r, adjust_pitch_variation O0 [1, 2, 3] 24000 (2/5) = .ok r → r.length = 3) := by
  have hwin : ∀ L, (O0.hanning L).length = L := fun L => by simp [O0]
  have hps : ∀ sr2 st s r, O0.pitchShift sr2 st s = .ok r → r.length = s.length := by
    intro sr2 st s r h
    injection h with h2
    rw [← h2]
  exact ⟨hwin, hps, (claim_C4 O0 24000 [1, 2, 3] (2/5) hwin hps).1,
    (claim_C4 O0 24000 [1, 2, 3] (2/5) hwin hps).2⟩

/-- C9: an absent recognized key behaves exactly as if present with its
documented default (spectrum_enhance 0.5, voice_quality 0.5, fluctuation 0.3,
breathiness 0.2, pitch_variation 0.4, speed_variation 0.3); keys outside the
recognized set have no effect on the output; and with the empty settings
mapping the pipeline body on any waveform of at least 256 samples is the
unconditional stage chain in which the breathiness, pitch-variation and
speed-variation stages all run (each default exceeds the 0.05 gate). -/
theorem claim_C9 :
    (∀ (O : Oracles) (sr : ℕ) (w : Wave) (s : Settings) (key : String),
      key ∈ recognizedKeys → s.find? (fun p => p.1 == key) = none →
      enhance_audio O sr w ((key, defaultFor key) :: s) = enhance_audio O sr w s) ∧
    (∀ (O : Oracles) (sr : ℕ) (w : Wave) (s : Settings) (key : String) (v : ℚ),
      key ∉ recognizedKeys →
      enhance_audio O sr w ((key, v) :: s) = enhance_audio O sr w s) ∧
    (∀ (O : Oracles) (sr : ℕ) (w : Wave), 256 ≤ w.length →
      enhanceBody O sr w [] =
        match O.spectrum w (1/2) with
        | .error e => .error e
        | .ok e1 =>
          match add_breathiness O sr (enhance_voice_quality O sr e1 (1/2)) (1/5) with
          | .error e => .error e
          | .ok e3 =>
            match normalize_audio (enhance_speed_variation O
                (enhance_pitch_variation O sr (add_natural_fluctuation O e3 (3/10)) (2/5))
                (3/10)) (9/10) with
            | some r => .ok r
            | none => .error ("zero-size array to reduction operation maximum")) := by
  refine ⟨?_, ?_, ?_⟩
  · intro O sr w s key hk habs
    exact enhance_audio_settings_congr O sr w _ s
      (getSetting_cons_default key _ s _ habs (fun h => by rw [h]; rfl))
      (getSetting_cons_default key _ s _ habs (fun h => by rw [h]; rfl))
      (getSetting_cons_default key _ s _ habs (fun h => by rw [h]; rfl))
      (getSetting_cons_default key _ s _ habs (fun h => by rw [h]; rfl))
      (getSetting_cons_default key _ s _ habs (fun h => by rw [h]; rfl))
      (getSetting_cons_default key _ s _ habs (fun h => by rw [h]; rfl))
  · intro O sr w s key v hk
    have h6 : ∀ k2 ∈ recognizedKeys, key ≠ k2 := fun k2 h2 he => hk (he ▸ h2)
    exact enhance_audio_settings_congr O sr w _ s
      (getSetting_cons_ne (h6 _ (by decide)) _ _ _)
      (getSetting_cons_ne (h6 _ (by decide)) _ _ _)
      (getSetting_cons_ne (h6 _ (by decide)) _ _ _)
      (getSetting_cons_ne (h6 _ (by decide)) _ _ _)
      (getSetting_cons_ne (h6 _ (by decide)) _ _ _)
      (getSetting_cons_ne (h6 _ (by decide)) _ _ _)
  · intro O sr w h
    unfold enhanceBody
    simp only [getSetting_nil]
    rw [if_pos h]
    cases hs : O.spectrum w (1/2) with
    | error e => rfl
    | ok e1 =>
      show enhanceTail1 O sr (1/2) (1/5) (3/10) (2/5) (3/10) e1 = _
      simp only [enhanceTail1]
      rw [if_pos (by norm_num : (1/20 : ℚ) < 1/5)]
      cases hb : add_breathiness O sr (enhance_voice_quality O sr e1 (1/2)) (1/5) with
      | error e => rfl
      | ok e3 =>
        show enhanceTail2 O sr (3/10) (2/5) (3/10) e3 = _
        simp only [enhanceTail2]
        rw [if_pos (by norm_num : (1/20 : ℚ) < 2/5),
          if_pos (by norm_num : (1/20 : ℚ) < 3/10)]

set_option maxRecDepth 4000 in
/-- Witness for C9: prepending the absent key breathiness at its default, an
unrecognized key, and the empty-settings chain on a 256-sample waveform. -/
theorem claim_C9_witness :
    (("breathiness") ∈ recognizedKeys ∧
     (List.find? (fun p => p.1 == ("breathiness")) ([] : Settings)) = none ∧
     enhance_audio O0 24000 [1] [(("breathiness"), defaultFor ("breathiness"))] =
       enhance_audio O0 24000 [1] []) ∧
    (("reverb") ∉ recognizedKeys ∧
     enhance_audio O0 24000 [1] [(("reverb"), 7)] = enhance_audio O0 24000 [1] []) ∧
    (256 ≤ (List.replicate 256 (1 : ℚ)).length ∧
     enhanceBody O0 24000 (List.replicate 256 1) [] =
       match O0.spectrum (List.replicate 256 1) (1/2) with
       | .error e => .error e
       | .ok e1 =>
         match add_breathiness O0 24000 (enhance_voice_quality O0 24000 e1 (1/2)) (1/5) with
         | .error e => .error e
         | .ok e3 =>
           match normalize_audio (enhance_speed_variation O0
               (enhance_pitch_variation O0 24000 (add_natural_fluctuation O0 e3 (3/10)) (2/5))
               (3/10)) (9/10) with
           | some r => .ok r
           | none => .error ("zero-size array to reduction operation maximum")) :=
  ⟨⟨by decide, rfl,
    claim_C9.1 O0 24000 [1] [] ("breathiness") (by decide) rfl⟩,
   ⟨by decide,
    claim_C9.2.1 O0 24000 [1] [] ("reverb") 7 (by decide)⟩,
   ⟨by simp only [List.length_replicate]; norm_num,
    claim_C9.2.2 O0 24000 (List.replicate 256 1)
      (by simp only [List.length_replicate]; norm_num)⟩⟩

/-- Counterexample for C3: on a 100-sample input (shorter than one 200 ms
segment at 24000 Hz) `adjust_speed_variation` does not return the input
unchanged — no segment is emitted, every weight stays zero, and the trim
step's max over an empty nonzero index set raises, so the call returns the
propagating error. -/
theorem claim_C3_counterexample :
    adjust_speed_variation O0 R0 (List.replicate 100 1) 24000 (3/10) =
      .error ("zero-size array to reduction operation maximum") := by
  simp only [adjust_speed_variation, List.length_replicate]
  rw [if_neg (by norm_num : ¬ (3/10 : ℚ) ≤ 0),
    if_neg (by decide : ¬ 3 * (24000 / 5) / 4 = 0),
    segmentStarts_nil 100 (24000 / 5) (3 * (24000 / 5) / 4) (by decide) (by decide)]
  exact speedFinish_zero_weights R0 100 _ 0 _

/-- C3 as amended: `adjust_speed_variation` clamps every per-segment speed
factor to `[0.8, 1.2]`, and (under the library guarantees for `np.hanning`
and `librosa.resample`) on any input longer than one segment it succeeds and
returns a waveform resampled back to exactly the input length; but on any
input no longer than one segment it does NOT return the input unchanged — it
raises (max over an empty nonzero index set), the error propagating to the
caller. -/
theorem claim_C3_amended (O : Oracles) (R : Wave → ℕ → ℕ → Wave) (audio : Wave)
    (sr : ℕ) (v : ℚ)
    (hv : 0 < v)
    (hhop : 0 < 3 * (sr / 5) / 4)
    (hwlen : (O.hanning (sr / 5)).length = sr / 5)
    (hwpos : ∀ y ∈ O.hanning (sr / 5), 0 ≤ y)
    (hwnz : ∃ y ∈ O.hanning (sr / 5), 0 < y)
    (hres : ∀ x t, 0 < x.length → (R x x.length t).length = t) :
    (∀ g : ℚ, 4/5 ≤ clampSpeed g ∧ clampSpeed g ≤ 6/5) ∧
    (sr / 5 < audio.length →
      ∃ w, adjust_speed_variation O R audio sr v = .ok w ∧ w.length = audio.length) ∧
    (audio.length ≤ sr / 5 →
      adjust_speed_variation O R audio sr v =
        .error ("zero-size array to reduction operation maximum")) := by
  have hrw : adjust_speed_variation O R audio sr v =
      speedFinish R audio.length
        ((withIdx (segmentStarts audio.length (sr / 5) (3 * (sr / 5) / 4))).foldl
          (speedStep O audio (O.hanning (sr / 5)) (sr / 5) (3 * (sr / 5) / 4) v)
          (SpeedState.mk
            (List.replicate (audio.length + ipart ((audio.length : ℚ) * v * (1/2))) 0)
            (List.replicate (audio.length + ipart ((audio.length : ℚ) * v * (1/2))) 0)
            0)) := by
    simp only [adjust_speed_variation]
    rw [if_neg (not_le.mpr hv), if_neg (by omega : ¬ 3 * (sr / 5) / 4 = 0)]
  refine ⟨?_, ?_, ?_⟩
  · intro g
    unfold clampSpeed
    by_cases h1 : g ≤ 4/5
    · rw [if_pos h1]
      constructor <;> norm_num
    · rw [if_neg h1]
      by_cases h2 : (6/5 : ℚ) ≤ g
      · rw [if_pos h2]
        constructor <;> norm_num
      · rw [if_neg h2]
        exact ⟨le_of_not_le h1, le_of_not_le h2⟩
  · intro hlong
    obtain ⟨t, ht⟩ := segmentStarts_cons audio.length (sr / 5) (3 * (sr / 5) / 4) hhop hlong
    have hst1w : ∀ RL : ℕ, sr / 5 ≤ RL →
        (speedStep O audio (O.hanning (sr / 5)) (sr / 5) (3 * (sr / 5) / 4) v
          (SpeedState.mk (List.replicate RL 0) (List.replicate RL 0) 0) (0, 0)).weights =
          addAt (List.replicate RL 0) 0 (O.hanning (sr / 5)) := by
      intro RL hRL
      simp only [speedStep]
      rw [if_pos (by simp only [List.length_replicate]; omega)]
    rcases hwnz with ⟨y, hy, hypos⟩
    rcases List.mem_iff_getElem.mp hy with ⟨j0, hj0, hjy⟩
    have hj0L : j0 < sr / 5 := by rw [← hwlen]; exact hj0
    rw [hrw, ht, withIdx_cons, List.foldl_cons]
    have hy1 : (speedStep O audio (O.hanning (sr / 5)) (sr / 5) (3 * (sr / 5) / 4) v
        (SpeedState.mk
          (List.replicate (audio.length + ipart ((audio.length : ℚ) * v * (1/2))) 0)
          (List.replicate (audio.length + ipart ((audio.length : ℚ) * v * (1/2))) 0)
          0) (0, 0)).weights.getD j0 0 = y := by
      rw [hst1w _ (by omega)]
      rw [addAt_zero_getD _ j0 (by simp only [List.length_replicate]; omega)
        (by rw [hwlen]; omega)]
      rw [replicate_getD, List.getD_eq_getElem _ 0 hj0, hjy, zero_add]
    refine speedFinish_ok R audio.length _ j0 ?_ ?_ ?_ hres
    · rw [speed_foldl_weights_length, speedStep_weights_length]
      simp only [List.length_replicate]
      omega
    · have hge := speed_foldl_weights_ge O audio (O.hanning (sr / 5)) (sr / 5)
        (3 * (sr / 5) / 4) v hwpos
        (((List.range t.length).map Nat.succ).zip t)
        (speedStep O audio (O.hanning (sr / 5)) (sr / 5) (3 * (sr / 5) / 4) v
          (SpeedState.mk
            (List.replicate (audio.length + ipart ((audio.length : ℚ) * v * (1/2))) 0)
            (List.replicate (audio.length + ipart ((audio.length : ℚ) * v * (1/2))) 0)
            0) (0, 0)) j0
      rw [hy1] at hge
      exact ne_of_gt (lt_of_lt_of_le hypos hge)
    · rw [speed_foldl_result_length, speed_foldl_weights_length,
        speedStep_result_length, speedStep_weights_length]
  · intro hshort
    rw [hrw, segmentStarts_nil audio.length (sr / 5) (3 * (sr / 5) / 4) hhop hshort]
    exact speedFinish_zero_weights R audio.length _ 0 _

/-- Witness for C3's amended theorem at `sr = 10` (segment length 2, hop 1),
input `[1, 2, 3]`, variation 1, the all-ones window and the length-faithful
resampler. -/
theorem claim_C3_amended_witness :
    ((0 : ℚ) < 1 ∧ 0 < 3 * (10 / 5) / 4 ∧ (O0.hanning (10 / 5)).length = 10 / 5 ∧
     (∀ y ∈ O0.hanning (10 / 5), 0 ≤ y) ∧ (∃ y ∈ O0.hanning (10 / 5), 0 < y) ∧
     (∀ (x : Wave) (t : ℕ), 0 < x.length → (R0 x x.length t).length = t)) ∧
    ((∀ g : ℚ, 4/5 ≤ clampSpeed g ∧ clampSpeed g ≤ 6/5) ∧
     (10 / 5 < ([(1 : ℚ), 2, 3]).length →
       ∃ w, adjust_speed_variation O0 R0 [1, 2, 3] 10 1 = .ok w ∧
         w.length = ([(1 : ℚ), 2, 3]).length) ∧
     (([(1 : ℚ), 2, 3]).length ≤ 10 / 5 →
       adjust_speed_variation O0 R0 [1, 2, 3] 10 1 =
         .error ("zero-size array to reduction operation maximum"))) := by
  have hv : (0 : ℚ) < 1 := by norm_num
  have hhop : 0 < 3 * (10 / 5) / 4 := by decide
  have hwlen : (O0.hanning (10 / 5)).length = 10 / 5 := by simp [O0]
  have hwpos : ∀ y ∈ O0.hanning (10 / 5), 0 ≤ y := by
    intro y hy
    rw [List.eq_of_mem_replicate hy]
    norm_num
  have hwnz : ∃ y ∈ O0.hanning (10 / 5), 0 < y :=
    ⟨1, by simp [O0], by norm_num⟩
  have hres : ∀ (x : Wave) (t : ℕ), 0 < x.length → (R0 x x.length t).length = t := by
    intro x t h
    simp [R0]
  exact ⟨⟨hv, hhop, hwlen, hwpos, hwnz, hres⟩,
    claim_C3_amended O0 R0 [1, 2, 3] 10 1 hv hhop hwlen hwpos hwnz hres⟩

end VoicevoxEnhancer
